import Mathlib

/-!
# SimpleFileServer: the resumable upload client (`static/app.js`)

A shallow embedding of the browser script that uploads the selected files in
chunks: `getUploadedBytes` (resume negotiation), `uploadChunk` (one XHR
request), `uploadFile` (the chunk loop) and the form's submit handler (the
batch loop).

Modelling conventions.

* Offsets, sizes and byte counts are mathematical integers.  The arithmetic of
  the chunk loop (`start < file.size`, `start += chunkSize`, `slice`) is exact
  integer arithmetic; it coincides with the arithmetic of ECMAScript Numbers
  while the values stay within `±2^53`.
* `parseInt` converts text to a Number; that conversion is modelled with the
  IEEE-754 round-to-nearest-even step of the language definition, because the
  text is arbitrary server output.
* Percentages are exact rationals.
* Browser behaviour (the status request, the XHR events of a chunk request) is
  an explicit argument of the functions.
-/

namespace SimpleFileServer

/-! ## ECMAScript Numbers used as offsets -/

/-- The Number values an offset can take: `NaN`, an integer-valued finite
Number, `+Infinity` or `-Infinity`.  (`-0` is identified with `0`: both are
falsy and compare equal.) -/
inductive JSNumber where
  | nan
  | finite (v : Int)
  | posInf
  | negInf
  deriving DecidableEq, Repr

namespace JSNumber

/-- Unary minus. -/
def neg : JSNumber → JSNumber
  | nan => nan
  | finite v => finite (-v)
  | posInf => negInf
  | negInf => posInf

/-- The expression `x || 0`: `x` when it is truthy, else `0`.  The falsy Numbers
are `NaN` and zero. -/
def orZero : JSNumber → JSNumber
  | nan => finite 0
  | finite v => if v = 0 then finite 0 else finite v
  | x => x

/-- The comparison `x < n` for a non-negative integer `n`. -/
def ltNat : JSNumber → Nat → Bool
  | nan, _ => false
  | finite v, n => decide (v < (n : Int))
  | posInf, _ => false
  | negInf, _ => true

/-- The sum `x + c` for an integer `c`, computed exactly on finite values.  This
is the sum of the two Numbers as long as `x`, `c` and `x + c` lie within `±2^53`;
beyond that range a Number sum is rounded, which this function does not do. -/
def addInt : JSNumber → Int → JSNumber
  | finite v, c => finite (v + c)
  | x, _ => x

end JSNumber

/-- Number of halvings that bring `m` below `2^53`: the exponent of the unit in
the last place of the double nearest to `m`. -/
def roundShift : Nat → Nat → Nat
  | 0, _ => 0
  | fuel + 1, m => if m < 2 ^ 53 then 0 else 1 + roundShift fuel (m / 2)

/-- The Number value of a non-negative mathematical integer: round to nearest
with a 53-bit significand, ties to even.  The rounded value is `q1 * 2^e` with
`q1 ≤ 2^53`; it overflows to `+Infinity` when it reaches `2^1024`, that is when
`e ≥ 972`, or `e = 971` and the significand was carried to `2^53`. -/
def toNumber (m : Nat) : JSNumber :=
  let e := roundShift m m
  let q := m / 2 ^ e
  let r := m % 2 ^ e
  let q1 := if 2 ^ e < 2 * r ∨ (2 * r = 2 ^ e ∧ q % 2 = 1) then q + 1 else q
  let v := q1 * 2 ^ e
  if 971 < e ∨ (e = 971 ∧ q1 = 2 ^ 53) then JSNumber.posInf else JSNumber.finite (v : Int)

/-! ## `parseInt` -/

/-- The characters `parseInt` skips at the start of its input
(`StrWhiteSpaceChar`: white space and line terminators). -/
def isStrWhiteSpaceChar (c : Char) : Bool :=
  let n := c.toNat
  n == 0x9 || n == 0xA || n == 0xB || n == 0xC || n == 0xD || n == 0x20 || n == 0xA0
    || n == 0x1680 || (decide (0x2000 ≤ n) && decide (n ≤ 0x200A)) || n == 0x2028
    || n == 0x2029 || n == 0x202F || n == 0x205F || n == 0x3000 || n == 0xFEFF

/-- Value of `c` as a digit of the given radix, if it is one. -/
def digitValue (radix : Nat) (c : Char) : Option Nat :=
  let n := c.toNat
  let v : Option Nat :=
    if 48 ≤ n ∧ n ≤ 57 then some (n - 48)
    else if 97 ≤ n ∧ n ≤ 122 then some (n - 87)
    else if 65 ≤ n ∧ n ≤ 90 then some (n - 55)
    else none
  match v with
  | some d => if d < radix then some d else none
  | none => none

/-- The digits of the longest prefix made of radix digits. -/
def leadingDigits (radix : Nat) : List Char → List Nat
  | [] => []
  | c :: cs =>
    match digitValue radix c with
    | some d => d :: leadingDigits radix cs
    | none => []

/-- The mathematical integer written by a digit list, most significant first. -/
def digitsValue (radix : Nat) (ds : List Nat) : Nat :=
  ds.foldl (fun acc d => acc * radix + d) 0

/-- Sign of the input and the input after the sign. -/
def splitSign : List Char → Bool × List Char
  | '-' :: r => (true, r)
  | '+' :: r => (false, r)
  | s => (false, s)

/-- Radix and the input after the `0x` / `0X` prefix (no radix argument). -/
def splitRadix : List Char → Nat × List Char
  | '0' :: 'x' :: r => (16, r)
  | '0' :: 'X' :: r => (16, r)
  | s => (10, s)

/-- The call `parseInt(text)` with no radix argument. -/
def parseInt (text : String) : JSNumber :=
  let s := text.toList.dropWhile isStrWhiteSpaceChar
  let (negative, s1) := splitSign s
  let (radix, s2) := splitRadix s1
  let z := leadingDigits radix s2
  if z.isEmpty then JSNumber.nan
  else
    let n := toNumber (digitsValue radix z)
    if negative then n.neg else n

/-! ## `getUploadedBytes` -/

deriving instance DecidableEq for Except

/-- What the status request does: `fetch` rejects, or it yields a response with
its `ok` flag and the outcome of reading its text (which may reject too). -/
inductive FetchBehaviour where
  | rejects (reason : String)
  | response (ok : Bool) (text : Except String String)

/-- The `try` block of `getUploadedBytes`. -/
def getUploadedBytesTry (fetchStatus : String → FetchBehaviour) (filename : String) :
    Except String JSNumber :=
  match fetchStatus filename with
  | .rejects reason => .error reason
  | .response ok text =>
    if !ok then .ok (JSNumber.finite 0)
    else
      match text with
      | .error reason => .error reason
      | .ok t => .ok (parseInt t).orZero

/-- The function `getUploadedBytes(filename)`: the `try` block, with `catch`
returning `0`. -/
def getUploadedBytes (fetchStatus : String → FetchBehaviour) (filename : String) :
    Except String JSNumber :=
  match getUploadedBytesTry fetchStatus filename with
  | .ok v => .ok v
  | .error _ => .ok (JSNumber.finite 0)

/-! ## Files, blobs and what the page shows -/

/-- A selected file: its name and its size in bytes. -/
structure File where
  name : String
  size : Nat
  deriving DecidableEq, Repr

/-- The bytes `[start, stop)` of the file a blob was sliced from. -/
structure Blob where
  start : Int
  stop : Int
  deriving DecidableEq, Repr

/-- Position inside a blob of `size` bytes denoted by a `slice` argument:
a negative argument counts from the end, and the result is kept within
`[0, size]`.  A finite argument is taken as the integer it is; `NaN` converts
to `0` and an infinite argument lies beyond every position. -/
def relativePosition (size : Nat) : JSNumber → Int
  | .nan => 0
  | .finite v => if v < 0 then max ((size : Int) + v) 0 else min v (size : Int)
  | .posInf => (size : Int)
  | .negInf => 0

/-- The call `file.slice(s, e)`. -/
def File.slice (file : File) (s e : JSNumber) : Blob :=
  let relativeStart := relativePosition file.size s
  let relativeEnd := relativePosition file.size e
  { start := relativeStart, stop := relativeStart + max (relativeEnd - relativeStart) 0 }

/-- The text of the status element: `overall.toFixed(2) + "%"` for a progress
value, or a literal text. -/
inductive StatusText where
  | fixed2Percent (overall : Option ℚ)
  | literal (text : String)
  deriving DecidableEq

/-- One chunk request: the form fields `filename`, `start` and `file`. -/
structure Request where
  filename : String
  start : JSNumber
  chunk : Blob
  deriving DecidableEq

/-- What an upload does that can be observed: a chunk request is sent, or the
progress bar and the status text of the file are written. -/
inductive Effect where
  | send (request : Request)
  | display (value : Option ℚ) (status : StatusText)
  deriving DecidableEq

/-- State of a promise. -/
inductive PromiseState where
  | pending
  | fulfilled
  | rejected (reason : String)
  deriving DecidableEq, Repr

namespace PromiseState

/-- The call `resolve()`: settles a pending promise only. -/
def resolve : PromiseState → PromiseState
  | pending => fulfilled
  | p => p

/-- The call `reject(reason)`: settles a pending promise only. -/
def reject (reason : String) : PromiseState → PromiseState
  | pending => rejected reason
  | p => p

end PromiseState

/-! ## `uploadChunk` -/

/-- The events an `XMLHttpRequest` delivers to the three handlers installed by
`uploadChunk`. -/
inductive XhrEvent where
  | progress (lengthComputable : Bool) (loaded : Nat)
  | load (status : Nat) (responseText : String)
  | error
  deriving DecidableEq, Repr

/-- The value `((start + e.loaded) / totalSize) * 100`; `none` when it is not a
finite number (an infinite `start`, or a division by zero). -/
def overallPercent (start : JSNumber) (loaded totalSize : Nat) : Option ℚ :=
  match start with
  | .finite v => if totalSize = 0 then none else some ((((v + loaded : Int) : ℚ) / totalSize) * 100)
  | _ => none

/-- The handler `xhr.upload.onprogress`. -/
def onprogress (start : JSNumber) (totalSize : Nat) (lengthComputable : Bool) (loaded : Nat) :
    List Effect :=
  if lengthComputable then
    let overall := overallPercent start loaded totalSize
    [Effect.display overall (StatusText.fixed2Percent overall)]
  else []

/-- The handler `xhr.onload`. -/
def onload (status : Nat) (responseText : String) (p : PromiseState) : PromiseState :=
  if status = 200 then p.resolve else p.reject ("Upload failed: " ++ responseText)

/-- The handler `xhr.onerror`. -/
def onerror (p : PromiseState) : PromiseState :=
  p.reject "Network error"

/-- The handlers run on the events of one request, in order. -/
def runHandlers (start : JSNumber) (totalSize : Nat) :
    PromiseState → List XhrEvent → PromiseState × List Effect
  | p, [] => (p, [])
  | p, .progress lengthComputable loaded :: rest =>
    let r := runHandlers start totalSize p rest
    (r.1, onprogress start totalSize lengthComputable loaded ++ r.2)
  | p, .load status responseText :: rest =>
    runHandlers start totalSize (onload status responseText p) rest
  | p, .error :: rest =>
    runHandlers start totalSize (onerror p) rest

/-- The function `uploadChunk`: the request is sent, then the handlers run on
its events.  The result is the state of the returned promise and what was
observed. -/
def uploadChunk (filename : String) (start : JSNumber) (chunk : Blob) (totalSize : Nat)
    (events : List XhrEvent) : PromiseState × List Effect :=
  let r := runHandlers start totalSize PromiseState.pending events
  (r.1, Effect.send { filename := filename, start := start, chunk := chunk } :: r.2)

/-! ## `uploadFile` -/

/-- The `for` loop of `uploadFile`, from loop variable `start`, for the chunk
request number `i` of this upload; `xhr i` is the events of that request.  The
loop leaves with `fulfilled` when `start < file.size` fails, and with the state
of the awaited promise when a chunk is rejected (the `await` throws) or never
settles.  `none`: more iterations than `fuel`. -/
def chunkLoop (chunkSize : Int) (file : File) (xhr : Nat → List XhrEvent) :
    Nat → JSNumber → Nat → Option (PromiseState × List Effect)
  | 0, _, _ => none
  | fuel + 1, start, i =>
    if start.ltNat file.size then
      let chunk := file.slice start (start.addInt chunkSize)
      let r := uploadChunk file.name start chunk file.size (xhr i)
      match r.1 with
      | .fulfilled =>
        match chunkLoop chunkSize file xhr fuel (start.addInt chunkSize) (i + 1) with
        | some r1 => some (r1.1, r.2 ++ r1.2)
        | none => none
      | p => some (p, r.2)
    else some (PromiseState.fulfilled, [])

/-- The body of `uploadFile` after the resume offset is known: the chunk loop,
then the completion writes `progressBar.value = 100` and `"Done!"`. -/
def uploadFrom (chunkSize : Int) (fuel : Nat) (xhr : Nat → List XhrEvent) (file : File)
    (uploadedBytes : JSNumber) : Option (PromiseState × List Effect) :=
  match chunkLoop chunkSize file xhr fuel uploadedBytes 0 with
  | some (.fulfilled, out) =>
    some (PromiseState.fulfilled,
      out ++ [Effect.display (some 100) (StatusText.literal "Done!")])
  | other => other

/-- The function `uploadFile` with its chunk size as a parameter. -/
def uploadFileWith (chunkSize : Int) (fuel : Nat) (fetchStatus : String → FetchBehaviour)
    (xhr : Nat → List XhrEvent) (file : File) : Option (PromiseState × List Effect) :=
  match getUploadedBytes fetchStatus file.name with
  | .ok uploadedBytes => uploadFrom chunkSize fuel xhr file uploadedBytes
  | .error reason => some (PromiseState.rejected reason, [])

/-- The function `uploadFile`: chunks of `1024 * 512` bytes. -/
def uploadFile (fuel : Nat) (fetchStatus : String → FetchBehaviour)
    (xhr : Nat → List XhrEvent) (file : File) : Option (PromiseState × List Effect) :=
  uploadFileWith (1024 * 512) fuel fetchStatus xhr file

/-! ## The submit handler -/

/-- One file of a batch the handler got to: the state of its `uploadFile`
promise and what was observed for it. -/
structure FileRun where
  file : File
  outcome : PromiseState
  effects : List Effect
  deriving DecidableEq

/-- The `for … of` loop of the submit handler, from the file number `k` of the
batch; `fetchStatus k` and `xhr k` are the behaviour of the status request and
of the chunk requests of that file.  Each file gets its progress bar at `0` and
an empty status text, then `uploadFile` is awaited: a rejection leaves the loop
(the exception propagates out of the handler), a promise that never settles
stops it. -/
def submitLoop (fuel : Nat) (fetchStatus : Nat → String → FetchBehaviour)
    (xhr : Nat → Nat → List XhrEvent) : Nat → List File → Option (PromiseState × List FileRun)
  | _, [] => some (PromiseState.fulfilled, [])
  | k, file :: rest =>
    match uploadFile fuel (fetchStatus k) (xhr k) file with
    | none => none
    | some (p, out) =>
      let run : FileRun :=
        { file := file, outcome := p
          effects := Effect.display (some 0) (StatusText.literal "") :: out }
      match p with
      | .fulfilled =>
        match submitLoop fuel fetchStatus xhr (k + 1) rest with
        | some r => some (r.1, run :: r.2)
        | none => none
      | _ => some (p, [run])

/-- Result of the submit handler: the alert shown for an empty selection, or
the state of the handler's promise and the files it got to, in order. -/
inductive SubmitResult where
  | alert (message : String)
  | ran (promise : PromiseState) (runs : List FileRun)
  deriving DecidableEq

/-- The submit handler of the upload form. -/
def submitHandler (fuel : Nat) (fetchStatus : Nat → String → FetchBehaviour)
    (xhr : Nat → Nat → List XhrEvent) (files : List File) : Option SubmitResult :=
  if files.length = 0 then some (SubmitResult.alert "Select files first")
  else
    match submitLoop fuel fetchStatus xhr 0 files with
    | some r => some (SubmitResult.ran r.1 r.2)
    | none => none

/-! ## Reading a run -/

/-- The chunk requests among the effects, in order. -/
def sentRequests : List Effect → List Request
  | [] => []
  | .send r :: rest => r :: sentRequests rest
  | .display _ _ :: rest => sentRequests rest

/-- The progress-bar values among the effects, in order. -/
def displayedValues : List Effect → List (Option ℚ)
  | [] => []
  | .send _ :: rest => displayedValues rest
  | .display v _ :: rest => v :: displayedValues rest

/-! ## Vocabulary of the statements -/

/-- Whether `c` is one of the decimal digits `0` to `9`. -/
def isDecimalDigit (c : Char) : Bool :=
  decide (48 ≤ c.toNat ∧ c.toNat ≤ 57)

/-- Whether the text begins with a decimal digit. -/
def headIsDigit : List Char → Bool
  | c :: _ => isDecimalDigit c
  | [] => false

/-- Whether the body begins, after leading white space and an optional sign,
with a decimal digit. -/
def beginsWithInteger (body : String) : Bool :=
  match body.toList.dropWhile isStrWhiteSpaceChar with
  | '-' :: r => headIsDigit r
  | '+' :: r => headIsDigit r
  | s => headIsDigit s

/-- Whether the text is a decimal integer and nothing else: an optional sign
followed by one or more decimal digits. -/
def isDecimalInteger (body : String) : Bool :=
  match body.toList with
  | '-' :: r => !r.isEmpty && r.all isDecimalDigit
  | '+' :: r => !r.isEmpty && r.all isDecimalDigit
  | s => !s.isEmpty && s.all isDecimalDigit

/-- The request of the chunk whose loop variable is `start`. -/
def chunkRequest (chunkSize : Int) (file : File) (start : Int) : Request :=
  { filename := file.name, start := JSNumber.finite start
    chunk := file.slice (JSNumber.finite start) (JSNumber.finite (start + chunkSize)) }

/-- The requests of `n` successive chunks, the first with loop variable `start`. -/
def chunkRequests (chunkSize : Int) (file : File) : Nat → Int → List Request
  | 0, _ => []
  | n + 1, start =>
    chunkRequest chunkSize file start :: chunkRequests chunkSize file n (start + chunkSize)

/-- What is observed while `n` successive chunks are uploaded, the first with
loop variable `start` and request number `i`. -/
def chunkEffects (chunkSize : Int) (file : File) (xhr : Nat → List XhrEvent) :
    Nat → Int → Nat → List Effect
  | 0, _, _ => []
  | n + 1, start, i =>
    (uploadChunk file.name (JSNumber.finite start)
        (file.slice (JSNumber.finite start) (JSNumber.finite (start + chunkSize)))
        file.size (xhr i)).2
      ++ chunkEffects chunkSize file xhr n (start + chunkSize) (i + 1)

/-- Number of loop variables `offset, offset + chunkSize, …` below `size`. -/
def chunkCount (size : Nat) (offset chunkSize : Int) : Nat :=
  (((size : Int) - offset + chunkSize - 1) / chunkSize).toNat

/-- The `e.loaded` values of the progress events that are `lengthComputable`. -/
def reportedLoaded : List XhrEvent → List Nat
  | [] => []
  | .progress true loaded :: rest => loaded :: reportedLoaded rest
  | _ :: rest => reportedLoaded rest

/-- A server that accepts every chunk: each request ends with `load`, status 200. -/
def acceptAll : Nat → List XhrEvent :=
  fun _ => [XhrEvent.load 200 "OK"]

/-- A server that rejects every chunk: each request ends with `load`, status 500. -/
def rejectAll : Nat → List XhrEvent :=
  fun _ => [XhrEvent.load 500 "disk full"]

/-- A status endpoint that answers every file with the given body. -/
def statusBody (body : String) : String → FetchBehaviour :=
  fun _ => FetchBehaviour.response true (.ok body)

/-- The run of `file` taken on its own as file number `k` of a batch: its
progress bar is created at `0` with an empty status text, then `uploadFile`
runs. -/
def aloneRun (fuel : Nat) (fetchStatus : Nat → String → FetchBehaviour)
    (xhr : Nat → Nat → List XhrEvent) (k : Nat) (file : File) : Option FileRun :=
  match uploadFile fuel (fetchStatus k) (xhr k) file with
  | some r =>
    some { file := file, outcome := r.1
           effects := Effect.display (some 0) (StatusText.literal "") :: r.2 }
  | none => none

/-! ## Lemmas on `parseInt` and `getUploadedBytes` -/

theorem roundShift_of_lt (fuel m : Nat) (h : m < 2 ^ 53) : roundShift fuel m = 0 := by
  cases fuel with
  | zero => rfl
  | succ f => unfold roundShift; rw [if_pos h]

theorem toNumber_of_lt (m : Nat) (h : m < 2 ^ 53) : toNumber m = JSNumber.finite (m : Int) := by
  simp [toNumber, roundShift_of_lt m m h, Nat.mod_one]

theorem toNumber_of_le (m : Nat) (h : m ≤ 2 ^ 53) : toNumber m = JSNumber.finite (m : Int) := by
  rcases Nat.lt_or_ge m (2 ^ 53) with h1 | h1
  · exact toNumber_of_lt m h1
  · have : m = 2 ^ 53 := Nat.le_antisymm h h1
    subst this
    decide

theorem digitValue_digitChar (d : Nat) (h : d < 10) : digitValue 10 (Nat.digitChar d) = some d := by
  interval_cases d <;> rfl

theorem leadingDigits_digitChars (ds : List Nat) (h : ∀ d ∈ ds, d < 10) :
    leadingDigits 10 (ds.map Nat.digitChar) = ds := by
  induction ds with
  | nil => rfl
  | cons d ds ih =>
    have hd : d < 10 := h d (List.mem_cons_self _ _)
    have ht : ∀ x ∈ ds, x < 10 := fun x hx => h x (List.mem_cons_of_mem _ hx)
    simp [leadingDigits, digitValue_digitChar d hd, ih ht]

theorem isStrWhiteSpaceChar_digitChar (d : Nat) (h : d < 10) :
    isStrWhiteSpaceChar (Nat.digitChar d) = false := by
  interval_cases d <;> rfl

theorem splitSign_digitChar (d : Nat) (h : d < 10) (r : List Char) :
    splitSign (Nat.digitChar d :: r) = (false, Nat.digitChar d :: r) := by
  interval_cases d <;> rfl

theorem splitRadix_digitChars (ds : List Nat) (h : ∀ d ∈ ds, d < 10) :
    splitRadix (ds.map Nat.digitChar) = (10, ds.map Nat.digitChar) := by
  match ds, h with
  | [], _ => rfl
  | [d], h =>
    have hd : d < 10 := h d (List.mem_cons_self _ _)
    interval_cases d <;> rfl
  | d :: d2 :: r, h =>
    have hd : d < 10 := h d (List.mem_cons_self _ _)
    have hd2 : d2 < 10 := h d2 (List.mem_cons_of_mem _ (List.mem_cons_self _ _))
    interval_cases d <;> interval_cases d2 <;> rfl

theorem digitsValue_eq_ofDigits (ds : List Nat) :
    digitsValue 10 ds = Nat.ofDigits 10 ds.reverse := by
  unfold digitsValue
  induction ds using List.reverseRecOn with
  | nil => rfl
  | append_singleton l a ih =>
    simp [List.foldl_append, ih, Nat.ofDigits_cons]
    ring

theorem parseInt_digitChars (ds : List Nat) (hne : ds ≠ []) (h : ∀ d ∈ ds, d < 10) :
    parseInt (String.mk (ds.map Nat.digitChar)) = toNumber (Nat.ofDigits 10 ds.reverse) := by
  obtain ⟨d, r, rfl⟩ := List.exists_cons_of_ne_nil hne
  have hd : d < 10 := h d (List.mem_cons_self _ _)
  have h1 : (String.mk ((d :: r).map Nat.digitChar)).toList.dropWhile isStrWhiteSpaceChar
      = (d :: r).map Nat.digitChar := by
    simp [List.dropWhile, isStrWhiteSpaceChar_digitChar d hd]
  have h2 : splitSign ((d :: r).map Nat.digitChar) = (false, (d :: r).map Nat.digitChar) := by
    simpa using splitSign_digitChar d hd (r.map Nat.digitChar)
  have h3 := splitRadix_digitChars _ h
  have h4 := leadingDigits_digitChars _ h
  simp only [parseInt, h1, h2, h3, h4, digitsValue_eq_ofDigits]
  simp

theorem digitValue_of_not_isDecimalDigit (c : Char) (h : isDecimalDigit c = false) :
    digitValue 10 c = none := by
  simp only [isDecimalDigit, decide_eq_false_iff_not] at h
  unfold digitValue
  simp only [if_neg h]
  split_ifs with h1 h2
  · simp only []
    rw [if_neg (by omega)]
  · simp only []
    rw [if_neg (by omega)]
  · rfl

theorem splitRadix_of_not_headIsDigit (s : List Char) (h : headIsDigit s = false) :
    splitRadix s = (10, s) := by
  unfold splitRadix
  split
  · simp [headIsDigit, isDecimalDigit] at h
  · simp [headIsDigit, isDecimalDigit] at h
  · rfl

theorem leadingDigits_of_not_headIsDigit (s : List Char) (h : headIsDigit s = false) :
    leadingDigits 10 s = [] := by
  cases s with
  | nil => rfl
  | cons c r =>
    simp only [headIsDigit] at h
    simp [leadingDigits, digitValue_of_not_isDecimalDigit c h]

theorem beginsWithInteger_eq (body : String) :
    beginsWithInteger body
      = headIsDigit (splitSign (body.toList.dropWhile isStrWhiteSpaceChar)).2 := by
  unfold beginsWithInteger splitSign
  split <;> rfl

theorem parseInt_of_not_beginsWithInteger (body : String) (h : beginsWithInteger body = false) :
    parseInt body = JSNumber.nan := by
  rw [beginsWithInteger_eq] at h
  simp only [String.toList] at h
  rcases hp : splitSign (List.dropWhile isStrWhiteSpaceChar body.data) with ⟨negative, s1⟩
  rw [hp] at h
  simp only [] at h
  simp [parseInt, hp, splitRadix_of_not_headIsDigit s1 h, leadingDigits_of_not_headIsDigit s1 h]

theorem orZero_finite (v : Int) : (JSNumber.finite v).orZero = JSNumber.finite v := by
  simp only [JSNumber.orZero]
  split_ifs with h
  · rw [h]
  · rfl

theorem orZero_ne_nan (x : JSNumber) : x.orZero ≠ JSNumber.nan := by
  cases x with
  | nan => simp [JSNumber.orZero]
  | finite v => rw [orZero_finite]; simp
  | posInf => simp [JSNumber.orZero]
  | negInf => simp [JSNumber.orZero]

theorem getUploadedBytes_of_body (fetchStatus : String → FetchBehaviour) (filename body : String)
    (h : fetchStatus filename = .response true (.ok body)) :
    getUploadedBytes fetchStatus filename = .ok (parseInt body).orZero := by
  simp [getUploadedBytes, getUploadedBytesTry, h]

theorem getUploadedBytes_of_not_body (fetchStatus : String → FetchBehaviour) (filename : String)
    (h : ∀ body, fetchStatus filename ≠ .response true (.ok body)) :
    getUploadedBytes fetchStatus filename = .ok (JSNumber.finite 0) := by
  unfold getUploadedBytes getUploadedBytesTry
  cases hf : fetchStatus filename with
  | rejects reason => rfl
  | response ok text =>
    cases ok with
    | false => rfl
    | true =>
      cases text with
      | error reason => rfl
      | ok body => exact absurd hf (h body)

theorem getUploadedBytes_of_digits (fetchStatus : String → FetchBehaviour) (filename : String)
    (ds : List Nat) (hne : ds ≠ []) (hds : ∀ d ∈ ds, d < 10)
    (hle : Nat.ofDigits 10 ds.reverse ≤ 2 ^ 53)
    (h : fetchStatus filename = .response true (.ok (String.mk (ds.map Nat.digitChar)))) :
    getUploadedBytes fetchStatus filename
      = .ok (JSNumber.finite (Nat.ofDigits 10 ds.reverse : Nat)) := by
  rw [getUploadedBytes_of_body _ _ _ h, parseInt_digitChars ds hne hds, toNumber_of_le _ hle,
    orZero_finite]

/-! ## Lemmas on `uploadChunk` -/

theorem runHandlers_fst_of_settled (start : JSNumber) (totalSize : Nat) (events : List XhrEvent) :
    ∀ p : PromiseState, p ≠ .pending → (runHandlers start totalSize p events).1 = p := by
  induction events with
  | nil => intro p _; rfl
  | cons ev rest ih =>
    intro p hp
    cases ev with
    | progress lc loaded => simpa [runHandlers] using ih p hp
    | load status body =>
      have h1 : onload status body p = p := by
        cases p <;> simp_all [onload, PromiseState.resolve, PromiseState.reject]
      simpa [runHandlers, h1] using ih p hp
    | error =>
      have h1 : onerror p = p := by
        cases p <;> simp_all [onerror, PromiseState.reject]
      simpa [runHandlers, h1] using ih p hp

theorem runHandlers_fst_progress (start : JSNumber) (totalSize : Nat)
    (before : List (Bool × Nat)) (rest : List XhrEvent) (p : PromiseState) :
    (runHandlers start totalSize p
        (before.map (fun e => XhrEvent.progress e.1 e.2) ++ rest)).1
      = (runHandlers start totalSize p rest).1 := by
  induction before with
  | nil => rfl
  | cons e before ih => simpa [runHandlers] using ih

theorem runHandlers_fst_indep (s1 s2 : JSNumber) (t1 t2 : Nat) (events : List XhrEvent) :
    ∀ p : PromiseState, (runHandlers s1 t1 p events).1 = (runHandlers s2 t2 p events).1 := by
  induction events with
  | nil => intro p; rfl
  | cons ev rest ih =>
    intro p
    cases ev with
    | progress lc loaded => simpa [runHandlers] using ih p
    | load status body => simpa [runHandlers] using ih _
    | error => simpa [runHandlers] using ih _

/-! ## Lemmas on the chunk loop -/

theorem sentRequests_append (a b : List Effect) :
    sentRequests (a ++ b) = sentRequests a ++ sentRequests b := by
  induction a with
  | nil => rfl
  | cons e a ih => cases e <;> simp [sentRequests, ih]

theorem sentRequests_runHandlers (start : JSNumber) (totalSize : Nat) (events : List XhrEvent) :
    ∀ p : PromiseState, sentRequests (runHandlers start totalSize p events).2 = [] := by
  induction events with
  | nil => intro p; rfl
  | cons ev rest ih =>
    intro p
    cases ev with
    | progress lc loaded =>
      cases lc <;> simp [runHandlers, onprogress, sentRequests_append, sentRequests, ih]
    | load status body => simpa [runHandlers] using ih _
    | error => simpa [runHandlers] using ih _

theorem sentRequests_uploadChunk (filename : String) (start : JSNumber) (chunk : Blob)
    (totalSize : Nat) (events : List XhrEvent) :
    sentRequests (uploadChunk filename start chunk totalSize events).2
      = [{ filename := filename, start := start, chunk := chunk }] := by
  simp [uploadChunk, sentRequests, sentRequests_runHandlers]

theorem sentRequests_chunkEffects (chunkSize : Int) (file : File) (xhr : Nat → List XhrEvent) :
    ∀ (n : Nat) (start : Int) (i : Nat),
      sentRequests (chunkEffects chunkSize file xhr n start i)
        = chunkRequests chunkSize file n start := by
  intro n
  induction n with
  | zero => intro start i; rfl
  | succ n ih =>
    intro start i
    simp [chunkEffects, chunkRequests, sentRequests_append, sentRequests_uploadChunk, ih,
      chunkRequest]

theorem fits_step {chunkSize : Int} {size : Nat} {n : Nat} {start : Int}
    (h : ∀ k : Nat, k < n + 1 → start + k * chunkSize < size) :
    start < size ∧ ∀ k : Nat, k < n → start + chunkSize + k * chunkSize < size := by
  constructor
  · simpa using h 0 (Nat.succ_pos n)
  · intro k hk
    have := h (k + 1) (Nat.succ_lt_succ hk)
    push_cast at this
    linarith

/-- The loop when every chunk is accepted: it runs through the `n` chunks below
`file.size` and leaves normally. -/
theorem chunkLoop_accepted (chunkSize : Int) (file : File) (xhr : Nat → List XhrEvent) :
    ∀ (n : Nat) (start : Int) (i fuel : Nat), n < fuel →
      (∀ k : Nat, k < n → start + k * chunkSize < file.size) →
      (file.size : Int) ≤ start + n * chunkSize →
      (∀ k : Nat, k < n → ∀ s b,
        (uploadChunk file.name s b file.size (xhr (i + k))).1 = PromiseState.fulfilled) →
      chunkLoop chunkSize file xhr fuel (JSNumber.finite start) i
        = some (PromiseState.fulfilled, chunkEffects chunkSize file xhr n start i) := by
  intro n
  induction n with
  | zero =>
    intro start i fuel hfuel _ hend _
    obtain ⟨f, rfl⟩ := Nat.exists_eq_succ_of_ne_zero (Nat.pos_iff_ne_zero.mp hfuel)
    have hlt : (JSNumber.finite start).ltNat file.size = false := by
      simp only [JSNumber.ltNat, decide_eq_false_iff_not]
      simp at hend
      omega
    simp [chunkLoop, hlt, chunkEffects]
  | succ n ih =>
    intro start i fuel hfuel hfit hend hok
    obtain ⟨f, rfl⟩ := Nat.exists_eq_succ_of_ne_zero (Nat.pos_iff_ne_zero.mp (Nat.zero_lt_of_lt hfuel))
    obtain ⟨h0, hfit1⟩ := fits_step hfit
    have hlt : (JSNumber.finite start).ltNat file.size = true := by
      simp only [JSNumber.ltNat, decide_eq_true_eq]
      exact h0
    have hend1 : (file.size : Int) ≤ start + chunkSize + n * chunkSize := by
      push_cast at hend
      linarith
    have hok0 := hok 0 (Nat.succ_pos n)
    have hok1 : ∀ k : Nat, k < n → ∀ s b,
        (uploadChunk file.name s b file.size (xhr (i + 1 + k))).1 = PromiseState.fulfilled := by
      intro k hk s b
      have := hok (k + 1) (Nat.succ_lt_succ hk) s b
      rwa [show i + (k + 1) = i + 1 + k by omega] at this
    have hrec := ih (start + chunkSize) (i + 1) f (Nat.lt_of_succ_lt_succ hfuel) hfit1 hend1 hok1
    simp only [Nat.add_zero] at hok0
    simp [chunkLoop, hlt, JSNumber.addInt, hok0, hrec, chunkEffects]

/-- The loop when the chunk number `j` (from 0) is the first whose promise is
not fulfilled: it runs through `j + 1` chunks and leaves with the state of that
promise. -/
theorem chunkLoop_stopped (chunkSize : Int) (file : File) (xhr : Nat → List XhrEvent)
    (p : PromiseState) (hp : p ≠ PromiseState.fulfilled) :
    ∀ (j : Nat) (start : Int) (i fuel : Nat), j < fuel →
      (∀ k : Nat, k < j + 1 → start + k * chunkSize < file.size) →
      (∀ k : Nat, k < j → ∀ s b,
        (uploadChunk file.name s b file.size (xhr (i + k))).1 = PromiseState.fulfilled) →
      (∀ s b, (uploadChunk file.name s b file.size (xhr (i + j))).1 = p) →
      chunkLoop chunkSize file xhr fuel (JSNumber.finite start) i
        = some (p, chunkEffects chunkSize file xhr (j + 1) start i) := by
  intro j
  induction j with
  | zero =>
    intro start i fuel hfuel hfit _ hfail
    obtain ⟨f, rfl⟩ := Nat.exists_eq_succ_of_ne_zero (Nat.pos_iff_ne_zero.mp hfuel)
    obtain ⟨h0, _⟩ := fits_step hfit
    have hlt : (JSNumber.finite start).ltNat file.size = true := by
      simp only [JSNumber.ltNat, decide_eq_true_eq]
      exact h0
    have hf := hfail (JSNumber.finite start)
      (file.slice (JSNumber.finite start) (JSNumber.finite (start + chunkSize)))
    simp only [Nat.add_zero] at hf
    cases p with
    | fulfilled => exact absurd rfl hp
    | pending => simp [chunkLoop, hlt, JSNumber.addInt, hf, chunkEffects]
    | rejected reason => simp [chunkLoop, hlt, JSNumber.addInt, hf, chunkEffects]
  | succ j ih =>
    intro start i fuel hfuel hfit hok hfail
    obtain ⟨f, rfl⟩ := Nat.exists_eq_succ_of_ne_zero (Nat.pos_iff_ne_zero.mp (Nat.zero_lt_of_lt hfuel))
    obtain ⟨h0, hfit1⟩ := fits_step hfit
    have hlt : (JSNumber.finite start).ltNat file.size = true := by
      simp only [JSNumber.ltNat, decide_eq_true_eq]
      exact h0
    have hok0 := hok 0 (Nat.succ_pos j)
    have hok1 : ∀ k : Nat, k < j → ∀ s b,
        (uploadChunk file.name s b file.size (xhr (i + 1 + k))).1 = PromiseState.fulfilled := by
      intro k hk s b
      have := hok (k + 1) (Nat.succ_lt_succ hk) s b
      rwa [show i + (k + 1) = i + 1 + k by omega] at this
    have hfail1 : ∀ s b, (uploadChunk file.name s b file.size (xhr (i + 1 + j))).1 = p := by
      intro s b
      have := hfail s b
      rwa [show i + (j + 1) = i + 1 + j by omega] at this
    have hrec := ih (start + chunkSize) (i + 1) f (Nat.lt_of_succ_lt_succ hfuel) hfit1 hok1 hfail1
    simp only [Nat.add_zero] at hok0
    rw [chunkEffects]
    simp [chunkLoop, hlt, JSNumber.addInt, hok0, hrec]

theorem chunkCount_spec (size : Nat) (offset chunkSize : Int) (hc : 0 < chunkSize) :
    (∀ k : Nat, k < chunkCount size offset chunkSize → offset + k * chunkSize < size)
    ∧ (size : Int) ≤ offset + (chunkCount size offset chunkSize : Nat) * chunkSize := by
  have h1 := Int.ediv_mul_le ((size : Int) - offset + chunkSize - 1) (ne_of_gt hc)
  have h2 := Int.lt_ediv_add_one_mul_self ((size : Int) - offset + chunkSize - 1) hc
  unfold chunkCount
  generalize ((size : Int) - offset + chunkSize - 1) / chunkSize = q at h1 h2
  rcases le_or_lt q 0 with hq | hq
  · have hz : q.toNat = 0 := Int.toNat_eq_zero.mpr hq
    rw [hz]
    constructor
    · intro k hk; omega
    · have : (q + 1) * chunkSize ≤ 1 * chunkSize :=
        mul_le_mul_of_nonneg_right (by omega) (le_of_lt hc)
      simp only [Nat.cast_zero, zero_mul, add_zero]
      linarith
  · have hn : ((q.toNat : Nat) : Int) = q := Int.toNat_of_nonneg (le_of_lt hq)
    constructor
    · intro k hk
      have hk1 : (k : Int) + 1 ≤ q := by omega
      have : ((k : Int) + 1) * chunkSize ≤ q * chunkSize :=
        mul_le_mul_of_nonneg_right hk1 (le_of_lt hc)
      linarith
    · rw [hn]
      linarith

theorem chunkCount_le (size : Nat) (offset chunkSize : Int) (hc : 0 < chunkSize) :
    chunkCount size offset chunkSize ≤ ((size : Int) - offset).toNat := by
  obtain ⟨hfit, _⟩ := chunkCount_spec size offset chunkSize hc
  rcases Nat.eq_zero_or_pos (chunkCount size offset chunkSize) with h0 | hpos
  · rw [h0]; exact Nat.zero_le _
  · have h := hfit (chunkCount size offset chunkSize - 1) (by omega)
    have hk : ((chunkCount size offset chunkSize - 1 : Nat) : Int) * 1
        ≤ ((chunkCount size offset chunkSize - 1 : Nat) : Int) * chunkSize :=
      mul_le_mul_of_nonneg_left (by omega) (by omega)
    omega

theorem chunkRequest_eq (chunkSize : Int) (file : File) (start : Int) (hc : 0 < chunkSize)
    (h0 : 0 ≤ start) (h1 : start < file.size) :
    chunkRequest chunkSize file start
      = { filename := file.name, start := JSNumber.finite start
          chunk := { start := start, stop := min (start + chunkSize) file.size } } := by
  have e1 : relativePosition file.size (JSNumber.finite start) = start := by
    simp only [relativePosition]
    rw [if_neg (by omega)]
    omega
  have e2 : relativePosition file.size (JSNumber.finite (start + chunkSize))
      = min (start + chunkSize) file.size := by
    simp only [relativePosition]
    rw [if_neg (by omega)]
  simp only [chunkRequest, File.slice, e1, e2]
  congr 2
  omega

theorem length_chunkRequests (chunkSize : Int) (file : File) :
    ∀ (n : Nat) (start : Int), (chunkRequests chunkSize file n start).length = n := by
  intro n
  induction n with
  | zero => intro start; rfl
  | succ n ih => intro start; simp [chunkRequests, ih]

theorem mem_chunkRequests (chunkSize : Int) (file : File) :
    ∀ (n : Nat) (start : Int) (r : Request), r ∈ chunkRequests chunkSize file n start →
      ∃ k : Nat, k < n ∧ r = chunkRequest chunkSize file (start + k * chunkSize) := by
  intro n
  induction n with
  | zero => intro start r h; simp [chunkRequests] at h
  | succ n ih =>
    intro start r h
    simp only [chunkRequests, List.mem_cons] at h
    rcases h with h | h
    · exact ⟨0, Nat.succ_pos n, by simp [h]⟩
    · obtain ⟨k, hk, hr⟩ := ih _ _ h
      refine ⟨k + 1, Nat.succ_lt_succ hk, ?_⟩
      rw [hr]
      congr 1
      push_cast
      ring

theorem getElem?_chunkRequests (chunkSize : Int) (file : File) :
    ∀ (n : Nat) (start : Int) (i : Nat), i < n →
      (chunkRequests chunkSize file n start)[i]?
        = some (chunkRequest chunkSize file (start + i * chunkSize)) := by
  intro n
  induction n with
  | zero => intro start i h; omega
  | succ n ih =>
    intro start i h
    cases i with
    | zero => simp [chunkRequests]
    | succ i =>
      simp only [chunkRequests, List.getElem?_cons_succ]
      rw [ih _ _ (Nat.lt_of_succ_lt_succ h)]
      congr 2
      push_cast
      ring

theorem drop_chunkRequests (chunkSize : Int) (file : File) :
    ∀ (k n : Nat) (start : Int), k ≤ n →
      (chunkRequests chunkSize file n start).drop k
        = chunkRequests chunkSize file (n - k) (start + k * chunkSize) := by
  intro k
  induction k with
  | zero => intro n start _; simp
  | succ k ih =>
    intro n start h
    obtain ⟨m, rfl⟩ := Nat.exists_eq_succ_of_ne_zero (Nat.pos_iff_ne_zero.mp (Nat.zero_lt_of_lt h))
    simp only [chunkRequests, List.drop_succ_cons]
    rw [ih m _ (Nat.le_of_succ_le_succ h)]
    congr 1
    · omega
    · push_cast
      ring

theorem take_chunkRequests (chunkSize : Int) (file : File) :
    ∀ (k n : Nat) (start : Int), k ≤ n →
      (chunkRequests chunkSize file n start).take k = chunkRequests chunkSize file k start := by
  intro k
  induction k with
  | zero => intro n start _; simp [chunkRequests]
  | succ k ih =>
    intro n start h
    obtain ⟨m, rfl⟩ := Nat.exists_eq_succ_of_ne_zero (Nat.pos_iff_ne_zero.mp (Nat.zero_lt_of_lt h))
    simp only [chunkRequests, List.take_succ_cons]
    rw [ih m _ (Nat.le_of_succ_le_succ h)]

/-- A successful run of `uploadFrom`, for any count `n` of loop variables below
the file size. -/
theorem uploadFrom_accepted (chunkSize : Int) (file : File) (xhr : Nat → List XhrEvent)
    (fuel n : Nat) (offset : Int) (hfuel : n < fuel)
    (hfit : ∀ k : Nat, k < n → offset + k * chunkSize < file.size)
    (hend : (file.size : Int) ≤ offset + n * chunkSize)
    (hok : ∀ k s b, (uploadChunk file.name s b file.size (xhr k)).1 = PromiseState.fulfilled) :
    uploadFrom chunkSize fuel xhr file (JSNumber.finite offset)
      = some (PromiseState.fulfilled,
          chunkEffects chunkSize file xhr n offset 0
            ++ [Effect.display (some 100) (StatusText.literal "Done!")]) := by
  have h := chunkLoop_accepted chunkSize file xhr n offset 0 fuel hfuel hfit hend
    (fun k _ s b => hok (0 + k) s b)
  simp [uploadFrom, h]

/-- A successful run of `uploadFrom` sends the `chunkCount` requests of the
plan. -/
theorem uploadFrom_accepted_count (chunkSize : Int) (file : File) (xhr : Nat → List XhrEvent)
    (fuel : Nat) (offset : Int) (hc : 0 < chunkSize)
    (hfuel : ((file.size : Int) - offset).toNat < fuel)
    (hok : ∀ k s b, (uploadChunk file.name s b file.size (xhr k)).1 = PromiseState.fulfilled) :
    uploadFrom chunkSize fuel xhr file (JSNumber.finite offset)
      = some (PromiseState.fulfilled,
          chunkEffects chunkSize file xhr (chunkCount file.size offset chunkSize) offset 0
            ++ [Effect.display (some 100) (StatusText.literal "Done!")]) := by
  obtain ⟨hfit, hend⟩ := chunkCount_spec file.size offset chunkSize hc
  exact uploadFrom_accepted chunkSize file xhr fuel _ offset
    (Nat.lt_of_le_of_lt (chunkCount_le file.size offset chunkSize hc) hfuel) hfit hend hok

theorem sentRequests_done (out : List Effect) (v : Option ℚ) (t : StatusText) :
    sentRequests (out ++ [Effect.display v t]) = sentRequests out := by
  simp [sentRequests_append, sentRequests]

/-! ## The plan tiles the bytes still to be sent -/

theorem chunkRequests_mem_range (chunkSize : Int) (file : File) (hc : 0 < chunkSize)
    (n : Nat) (start : Int) (h0 : 0 ≤ start)
    (hfit : ∀ k : Nat, k < n → start + k * chunkSize < file.size)
    (r : Request) (hr : r ∈ chunkRequests chunkSize file n start) :
    r.start = JSNumber.finite r.chunk.start
      ∧ r.chunk.stop = min (r.chunk.start + chunkSize) file.size
      ∧ r.chunk.start < r.chunk.stop ∧ r.chunk.stop - r.chunk.start ≤ chunkSize
      ∧ start ≤ r.chunk.start := by
  obtain ⟨k, hk, rfl⟩ := mem_chunkRequests chunkSize file n start r hr
  have hk0 : (0 : Int) ≤ k * chunkSize := mul_nonneg (by omega) (le_of_lt hc)
  rw [chunkRequest_eq chunkSize file _ hc (by omega) (hfit k hk)]
  have := hfit k hk
  refine ⟨rfl, rfl, ?_, ?_, ?_⟩ <;> simp only [] <;> omega

theorem chunkRequests_chain (chunkSize : Int) (file : File) (hc : 0 < chunkSize) :
    ∀ (n : Nat) (start : Int), 0 ≤ start →
      (∀ k : Nat, k < n → start + k * chunkSize < file.size) →
      List.Chain' (fun a b : Request => a.chunk.stop = b.chunk.start)
        (chunkRequests chunkSize file n start) := by
  intro n
  induction n with
  | zero => intro start _ _; simp [chunkRequests]
  | succ n ih =>
    intro start h0 hfit
    obtain ⟨hlt, hfit1⟩ := fits_step hfit
    rw [chunkRequests, List.chain'_cons']
    refine ⟨?_, ih _ (by omega) hfit1⟩
    intro y hy
    cases n with
    | zero => simp [chunkRequests] at hy
    | succ m =>
      have h1 : start + chunkSize < file.size := by simpa using hfit1 0 (Nat.succ_pos m)
      simp only [chunkRequests, List.head?_cons, Option.mem_def, Option.some.injEq] at hy
      rw [← hy, chunkRequest_eq chunkSize file _ hc h0 hlt,
        chunkRequest_eq chunkSize file _ hc (by omega) h1]
      simp only []
      omega

theorem chunkRequests_head (chunkSize : Int) (file : File) (hc : 0 < chunkSize)
    (n : Nat) (start : Int) (h0 : 0 ≤ start)
    (hfit : ∀ k : Nat, k < n → start + k * chunkSize < file.size)
    (r : Request) (hr : (chunkRequests chunkSize file n start).head? = some r) :
    r.chunk.start = start := by
  cases n with
  | zero => simp [chunkRequests] at hr
  | succ m =>
    obtain ⟨hlt, _⟩ := fits_step hfit
    simp only [chunkRequests, List.head?_cons, Option.some.injEq] at hr
    rw [← hr, chunkRequest_eq chunkSize file _ hc h0 hlt]

theorem chunkRequests_last (chunkSize : Int) (file : File) (hc : 0 < chunkSize)
    (n : Nat) (start : Int) (h0 : 0 ≤ start)
    (hfit : ∀ k : Nat, k < n → start + k * chunkSize < file.size)
    (hend : (file.size : Int) ≤ start + n * chunkSize)
    (r : Request) (hr : (chunkRequests chunkSize file n start).getLast? = some r) :
    r.chunk.stop = file.size := by
  cases n with
  | zero => simp [chunkRequests] at hr
  | succ m =>
    rw [List.getLast?_eq_getElem?, length_chunkRequests,
      getElem?_chunkRequests chunkSize file (m + 1) start (m + 1 - 1) (by omega)] at hr
    simp only [Nat.add_sub_cancel, Option.some.injEq] at hr
    have hm := hfit m (Nat.lt_succ_self m)
    have hk0 : (0 : Int) ≤ m * chunkSize := mul_nonneg (by omega) (le_of_lt hc)
    rw [← hr, chunkRequest_eq chunkSize file _ hc (by omega) hm]
    simp only []
    push_cast at hend
    have : (file.size : Int) ≤ start + m * chunkSize + chunkSize := by linarith
    omega

theorem chunkRequests_cover (chunkSize : Int) (file : File) (hc : 0 < chunkSize) :
    ∀ (n : Nat) (start : Int), 0 ≤ start →
      (∀ k : Nat, k < n → start + k * chunkSize < file.size) →
      (file.size : Int) ≤ start + n * chunkSize →
      ∀ x : Int, (start ≤ x ∧ x < file.size) ↔
        ∃ r ∈ chunkRequests chunkSize file n start, r.chunk.start ≤ x ∧ x < r.chunk.stop := by
  intro n
  induction n with
  | zero =>
    intro start _ _ hend x
    simp only [chunkRequests, List.not_mem_nil, false_and, exists_false, iff_false]
    simp at hend
    omega
  | succ n ih =>
    intro start h0 hfit hend x
    obtain ⟨hlt, hfit1⟩ := fits_step hfit
    have hend1 : (file.size : Int) ≤ start + chunkSize + n * chunkSize := by
      push_cast at hend
      linarith
    have hrec := ih (start + chunkSize) (by omega) hfit1 hend1 x
    simp only [chunkRequests, List.exists_mem_cons_iff] 
    rw [← hrec, chunkRequest_eq chunkSize file _ hc h0 hlt]
    simp only []
    omega

theorem chunkRequests_pairwise (chunkSize : Int) (file : File) (hc : 0 < chunkSize) :
    ∀ (n : Nat) (start : Int), 0 ≤ start →
      (∀ k : Nat, k < n → start + k * chunkSize < file.size) →
      List.Pairwise (fun a b : Request => a.chunk.stop ≤ b.chunk.start)
        (chunkRequests chunkSize file n start) := by
  intro n
  induction n with
  | zero => intro start _ _; simp [chunkRequests]
  | succ n ih =>
    intro start h0 hfit
    obtain ⟨hlt, hfit1⟩ := fits_step hfit
    rw [chunkRequests, List.pairwise_cons]
    refine ⟨?_, ih _ (by omega) hfit1⟩
    intro b hb
    have hb1 := (chunkRequests_mem_range chunkSize file hc n _ (by omega) hfit1 b hb).2.2.2.2
    rw [chunkRequest_eq chunkSize file _ hc h0 hlt]
    simp only []
    omega

theorem mem_runHandlers (start : JSNumber) (totalSize : Nat) (events : List XhrEvent) :
    ∀ (p : PromiseState) (e : Effect), e ∈ (runHandlers start totalSize p events).2 →
      ∃ v, e = Effect.display v (StatusText.fixed2Percent v) := by
  induction events with
  | nil => intro p e h; simp [runHandlers] at h
  | cons ev rest ih =>
    intro p e h
    cases ev with
    | progress lc loaded =>
      simp only [runHandlers, List.mem_append] at h
      rcases h with h | h
      · cases lc with
        | false => simp [onprogress] at h
        | true =>
          simp only [onprogress, if_true, List.mem_singleton] at h
          exact ⟨_, h⟩
      · exact ih p e h
    | load status body => exact ih _ e (by simpa [runHandlers] using h)
    | error => exact ih _ e (by simpa [runHandlers] using h)

theorem done_not_mem_chunkEffects (chunkSize : Int) (file : File) (xhr : Nat → List XhrEvent)
    (v : Option ℚ) :
    ∀ (n : Nat) (start : Int) (i : Nat),
      Effect.display v (StatusText.literal "Done!") ∉ chunkEffects chunkSize file xhr n start i := by
  intro n
  induction n with
  | zero => intro start i; simp [chunkEffects]
  | succ n ih =>
    intro start i h
    simp only [chunkEffects, uploadChunk, List.mem_append, List.mem_cons] at h
    rcases h with (h | h) | h
    · cases h
    · obtain ⟨w, hw⟩ := mem_runHandlers _ _ _ _ _ h
      cases hw
    · exact ih _ _ h

theorem ceil_eq_of_fits (size : Nat) (offset chunkSize : Int) (hc : 0 < chunkSize) (n : Nat)
    (hfit : ∀ k : Nat, k < n → offset + k * chunkSize < size)
    (hend : (size : Int) ≤ offset + n * chunkSize) :
    Nat.ceil ((((size : Int) - offset : Int) : ℚ) / (chunkSize : ℚ)) = n := by
  have hcq : (0 : ℚ) < (chunkSize : ℚ) := by exact_mod_cast hc
  rcases Nat.eq_zero_or_pos n with h0 | hpos
  · subst h0
    rw [Nat.ceil_eq_zero]
    apply div_nonpos_of_nonpos_of_nonneg _ (le_of_lt hcq)
    have : (size : Int) - offset ≤ 0 := by simp at hend; omega
    exact_mod_cast this
  · rw [Nat.ceil_eq_iff (Nat.pos_iff_ne_zero.mp hpos)]
    constructor
    · rw [lt_div_iff₀ hcq]
      have := hfit (n - 1) (by omega)
      have h2 : ((n - 1 : Nat) : Int) * chunkSize < (size : Int) - offset := by linarith
      exact_mod_cast h2
    · rw [div_le_iff₀ hcq]
      have h2 : (size : Int) - offset ≤ (n : Int) * chunkSize := by linarith
      exact_mod_cast h2

/-! ## The values written to the progress bar -/

theorem displayedValues_append (a b : List Effect) :
    displayedValues (a ++ b) = displayedValues a ++ displayedValues b := by
  induction a with
  | nil => rfl
  | cons e a ih => cases e <;> simp [displayedValues, ih]

theorem displayedValues_runHandlers (start : JSNumber) (totalSize : Nat)
    (events : List XhrEvent) :
    ∀ p : PromiseState, displayedValues (runHandlers start totalSize p events).2
      = (reportedLoaded events).map (fun l => overallPercent start l totalSize) := by
  induction events with
  | nil => intro p; rfl
  | cons ev rest ih =>
    intro p
    cases ev with
    | progress lc loaded =>
      cases lc <;>
        simp [runHandlers, onprogress, displayedValues_append, displayedValues, reportedLoaded, ih]
    | load status body => simpa [runHandlers, reportedLoaded] using ih _
    | error => simpa [runHandlers, reportedLoaded] using ih _

theorem displayedValues_uploadChunk (filename : String) (start : JSNumber) (chunk : Blob)
    (totalSize : Nat) (events : List XhrEvent) :
    displayedValues (uploadChunk filename start chunk totalSize events).2
      = (reportedLoaded events).map (fun l => overallPercent start l totalSize) := by
  simp [uploadChunk, displayedValues, displayedValues_runHandlers]

/-- The progress values of `n` successive chunks are the percentages of a
non-decreasing list of byte positions between the first loop variable and the
file size. -/
theorem displayedValues_chunkEffects (chunkSize : Int) (file : File)
    (xhr : Nat → List XhrEvent) (hc : 0 < chunkSize) :
    ∀ (n : Nat) (start : Int) (i : Nat), 0 ≤ start →
      (∀ k : Nat, k < n → start + k * chunkSize < file.size) →
      (∀ k : Nat, k < n →
        List.Pairwise (fun a b : Nat => a ≤ b) (reportedLoaded (xhr (i + k)))
        ∧ ∀ l ∈ reportedLoaded (xhr (i + k)),
            (l : Int) ≤ min (start + k * chunkSize + chunkSize) file.size
              - (start + k * chunkSize)) →
      ∃ xs : List Int,
        displayedValues (chunkEffects chunkSize file xhr n start i)
          = xs.map (fun x => some (((x : Int) : ℚ) / (file.size : ℚ) * 100))
        ∧ xs.Pairwise (fun a b => a ≤ b) ∧ ∀ x ∈ xs, start ≤ x ∧ x ≤ file.size := by
  intro n
  induction n with
  | zero =>
    intro start i _ _ _
    exact ⟨[], by simp [chunkEffects, displayedValues], List.Pairwise.nil, by simp⟩
  | succ n ih =>
    intro start i h0 hfit hprog
    obtain ⟨hlt, hfit1⟩ := fits_step hfit
    have hprog1 : ∀ k : Nat, k < n →
        List.Pairwise (fun a b : Nat => a ≤ b) (reportedLoaded (xhr (i + 1 + k)))
        ∧ ∀ l ∈ reportedLoaded (xhr (i + 1 + k)),
            (l : Int) ≤ min (start + chunkSize + k * chunkSize + chunkSize) file.size
              - (start + chunkSize + k * chunkSize) := by
      intro k hk
      have h := hprog (k + 1) (Nat.succ_lt_succ hk)
      rw [show i + (k + 1) = i + 1 + k by omega] at h
      have e : start + ((k + 1 : Nat) : Int) * chunkSize = start + chunkSize + k * chunkSize := by
        push_cast
        ring
      rw [e] at h
      exact h
    obtain ⟨xs, hxs, hpw, hbd⟩ := ih (start + chunkSize) (i + 1) (by omega) hfit1 hprog1
    obtain ⟨hsorted, hloaded⟩ := hprog 0 (Nat.succ_pos n)
    simp only [Nat.add_zero, Nat.cast_zero, zero_mul, add_zero] at hsorted hloaded
    have hsize : file.size ≠ 0 := by
      intro hz
      rw [hz] at hlt
      simp at hlt
      omega
    refine ⟨(reportedLoaded (xhr i)).map (fun l : Nat => start + (l : Int)) ++ xs, ?_, ?_, ?_⟩
    · rw [chunkEffects, displayedValues_append, displayedValues_uploadChunk, hxs, List.map_append,
        List.map_map]
      congr 1
      apply List.map_congr_left
      intro l _
      simp [overallPercent, hsize]
    · rw [List.pairwise_append]
      refine ⟨?_, hpw, ?_⟩
      · exact List.Pairwise.map _ (fun a b hab => by omega) hsorted
      · intro a ha b hb
        obtain ⟨l, hl, rfl⟩ := List.mem_map.mp ha
        have := hloaded l hl
        have := (hbd b hb).1
        omega
    · intro x hx
      rcases List.mem_append.mp hx with hx | hx
      · obtain ⟨l, hl, rfl⟩ := List.mem_map.mp hx
        have := hloaded l hl
        omega
      · have := hbd x hx
        omega

theorem percent_mono (size : Nat) (a b : Int) (h : a ≤ b) :
    ((a : Int) : ℚ) / (size : ℚ) * 100 ≤ ((b : Int) : ℚ) / (size : ℚ) * 100 := by
  have hab : ((a : Int) : ℚ) ≤ ((b : Int) : ℚ) := by exact_mod_cast h
  have hs : (0 : ℚ) ≤ (size : ℚ) := by exact_mod_cast Nat.zero_le size
  exact mul_le_mul_of_nonneg_right (div_le_div_of_nonneg_right hab hs) (by norm_num)

theorem percent_bounds (size : Nat) (x : Int) (h0 : 0 ≤ x) (h1 : x ≤ size) :
    0 ≤ ((x : Int) : ℚ) / (size : ℚ) * 100 ∧ ((x : Int) : ℚ) / (size : ℚ) * 100 ≤ 100 := by
  have hx : (0 : ℚ) ≤ ((x : Int) : ℚ) := by exact_mod_cast h0
  have hs : (0 : ℚ) ≤ (size : ℚ) := by exact_mod_cast Nat.zero_le size
  have hxs : ((x : Int) : ℚ) ≤ (size : ℚ) := by exact_mod_cast h1
  constructor
  · exact mul_nonneg (div_nonneg hx hs) (by norm_num)
  · have : ((x : Int) : ℚ) / (size : ℚ) ≤ 1 := div_le_one_of_le₀ hxs hs
    linarith

/-! ## The batch loop -/

/-- The batch loop stops at the first file whose upload is rejected: the files
before it and that file are run, each as it would be on its own. -/
theorem submitLoop_rejected (fuel : Nat) (fetchStatus : Nat → String → FetchBehaviour)
    (xhr : Nat → Nat → List XhrEvent) (f : File) (post : List File) (reason : String) :
    ∀ (pre : List File) (k : Nat),
      (∀ (i : Nat) (h : i < pre.length), ∃ out,
        uploadFile fuel (fetchStatus (k + i)) (xhr (k + i)) pre[i]
          = some (PromiseState.fulfilled, out)) →
      (∃ out, uploadFile fuel (fetchStatus (k + pre.length)) (xhr (k + pre.length)) f
          = some (PromiseState.rejected reason, out)) →
      ∃ runs, submitLoop fuel fetchStatus xhr k (pre ++ f :: post)
          = some (PromiseState.rejected reason, runs)
        ∧ runs.map some
            = ((pre ++ [f]).enumFrom k).map (fun e => aloneRun fuel fetchStatus xhr e.1 e.2)
        ∧ runs.map (fun run => run.file) = pre ++ [f] := by
  intro pre
  induction pre with
  | nil =>
    intro k _ hf
    obtain ⟨out, hout⟩ := hf
    simp only [List.length_nil, Nat.add_zero] at hout
    refine ⟨[{ file := f, outcome := PromiseState.rejected reason
               effects := Effect.display (some 0) (StatusText.literal "") :: out }], ?_, ?_, ?_⟩
    · simp [submitLoop, hout]
    · simp [List.enumFrom, aloneRun, hout]
    · simp
  | cons a pre ih =>
    intro k hpre hf
    obtain ⟨outA, hA⟩ := hpre 0 (by simp)
    simp only [Nat.add_zero, List.getElem_cons_zero] at hA
    have hpre1 : ∀ (i : Nat) (h : i < pre.length), ∃ out,
        uploadFile fuel (fetchStatus (k + 1 + i)) (xhr (k + 1 + i)) pre[i]
          = some (PromiseState.fulfilled, out) := by
      intro i h
      obtain ⟨out, hout⟩ := hpre (i + 1) (by simp; omega)
      simp only [List.getElem_cons_succ] at hout
      rw [show k + (i + 1) = k + 1 + i by omega] at hout
      exact ⟨out, hout⟩
    have hf1 : ∃ out, uploadFile fuel (fetchStatus (k + 1 + pre.length))
        (xhr (k + 1 + pre.length)) f = some (PromiseState.rejected reason, out) := by
      obtain ⟨out, hout⟩ := hf
      simp only [List.length_cons] at hout
      rw [show k + (pre.length + 1) = k + 1 + pre.length by omega] at hout
      exact ⟨out, hout⟩
    obtain ⟨runs, hruns, hmap, hfiles⟩ := ih (k + 1) hpre1 hf1
    refine ⟨{ file := a, outcome := PromiseState.fulfilled
              effects := Effect.display (some 0) (StatusText.literal "") :: outA } :: runs,
      ?_, ?_, ?_⟩
    · simp [submitLoop, hA, hruns]
    · simp only [List.map_cons, List.cons_append, List.enumFrom_cons, hmap]
      simp [aloneRun, hA]
    · simp [hfiles]

/-! ## The claims -/

/-- C10 (outcome of one chunk): whatever progress events come first and whatever
events come later, a request whose first terminal event is `load` with status
200 fulfils the promise of `uploadChunk`, one whose first terminal event is
`load` with another status rejects it with `"Upload failed: "` followed by the
response text, and one whose first terminal event is `error` rejects it with
`"Network error"`. -/
theorem uploadChunk_outcome (filename : String) (start : JSNumber) (chunk : Blob)
    (totalSize : Nat) (before : List (Bool × Nat)) (after : List XhrEvent)
    (status : Nat) (body : String) :
    (uploadChunk filename start chunk totalSize
        (before.map (fun e => XhrEvent.progress e.1 e.2)
          ++ XhrEvent.load status body :: after)).1
      = (if status = 200 then PromiseState.fulfilled
          else PromiseState.rejected ("Upload failed: " ++ body))
    ∧ (uploadChunk filename start chunk totalSize
        (before.map (fun e => XhrEvent.progress e.1 e.2) ++ XhrEvent.error :: after)).1
      = PromiseState.rejected "Network error" := by
  constructor
  · simp only [uploadChunk, runHandlers_fst_progress, runHandlers]
    rw [runHandlers_fst_of_settled]
    · simp only [onload, PromiseState.resolve, PromiseState.reject]
    · simp only [onload, PromiseState.resolve, PromiseState.reject]
      split_ifs <;> simp
  · simp only [uploadChunk, runHandlers_fst_progress, runHandlers]
    rw [runHandlers_fst_of_settled]
    · rfl
    · simp [onerror, PromiseState.reject]

/-- C3, as amended (fail-open negotiation): `getUploadedBytes` always returns a
value; that value is `0` when the request rejects, when the response is not ok,
when reading the body rejects and when the body does not begin (after white
space and an optional sign) with a decimal digit; for an ok response whose body
is a non-empty string of decimal digits writing `n ≤ 2^53`, it is `n`. -/
theorem getUploadedBytes_fail_open (fetchStatus : String → FetchBehaviour) (filename : String) :
    (∃ v, getUploadedBytes fetchStatus filename = .ok v)
    ∧ (∀ reason, fetchStatus filename = .rejects reason →
        getUploadedBytes fetchStatus filename = .ok (JSNumber.finite 0))
    ∧ (∀ text, fetchStatus filename = .response false text →
        getUploadedBytes fetchStatus filename = .ok (JSNumber.finite 0))
    ∧ (∀ reason, fetchStatus filename = .response true (.error reason) →
        getUploadedBytes fetchStatus filename = .ok (JSNumber.finite 0))
    ∧ (∀ body, fetchStatus filename = .response true (.ok body) →
        beginsWithInteger body = false →
        getUploadedBytes fetchStatus filename = .ok (JSNumber.finite 0))
    ∧ (∀ ds : List Nat, ds ≠ [] → (∀ d ∈ ds, d < 10) → Nat.ofDigits 10 ds.reverse ≤ 2 ^ 53 →
        fetchStatus filename = .response true (.ok (String.mk (ds.map Nat.digitChar))) →
        getUploadedBytes fetchStatus filename
          = .ok (JSNumber.finite (Nat.ofDigits 10 ds.reverse : Nat))) := by
  refine ⟨?_, ?_, ?_, ?_, ?_, ?_⟩
  · unfold getUploadedBytes
    cases getUploadedBytesTry fetchStatus filename with
    | ok v => exact ⟨v, rfl⟩
    | error e => exact ⟨_, rfl⟩
  · intro reason h
    exact getUploadedBytes_of_not_body _ _ (by intro body hb; rw [h] at hb; cases hb)
  · intro text h
    exact getUploadedBytes_of_not_body _ _ (by intro body hb; rw [h] at hb; cases hb)
  · intro reason h
    exact getUploadedBytes_of_not_body _ _ (by intro body hb; rw [h] at hb; cases hb)
  · intro body h hn
    rw [getUploadedBytes_of_body _ _ _ h, parseInt_of_not_beginsWithInteger body hn]
    rfl
  · intro ds hne hds hle h
    exact getUploadedBytes_of_digits _ _ ds hne hds hle h

/-- Witness of `getUploadedBytes_fail_open`: the body `"42"` gives the offset 42. -/
theorem getUploadedBytes_fail_open_witness :
    getUploadedBytes (fun _ => .response true (.ok (String.mk ([4, 2].map Nat.digitChar))))
        "a.bin"
      = .ok (JSNumber.finite (Nat.ofDigits 10 [4, 2].reverse : Nat)) :=
  (getUploadedBytes_fail_open (fun _ => .response true (.ok (String.mk ([4, 2].map Nat.digitChar))))
    "a.bin").2.2.2.2.2 [4, 2] (by decide) (by decide) (by decide) rfl

/-- C3 as stated fails: the body `"12abc"` is not a number, yet the offset is 12
and not 0; the body `"9007199254740993"` is a well-formed decimal integer, yet
the offset is 9007199254740992. -/
theorem getUploadedBytes_fail_open_counterexample :
    (getUploadedBytes (fun _ => .response true (.ok "12abc")) "a.bin"
        = .ok (JSNumber.finite 12)
      ∧ isDecimalInteger "12abc" = false)
    ∧ (getUploadedBytes (fun _ => .response true (.ok "9007199254740993")) "a.bin"
        = .ok (JSNumber.finite 9007199254740992)
      ∧ isDecimalInteger "9007199254740993" = true
      ∧ "9007199254740993" = toString (9007199254740993 : Nat)) := by
  decide

/-- C8 (empty plan completes directly): when the negotiated offset is at least
the file size, and in particular for a zero-byte file with a non-negative
offset, `uploadFile` sends no chunk, its promise is fulfilled, and the only thing
observed is the final write of progress 100 and status text `"Done!"`. -/
theorem uploadFile_empty_plan (chunkSize : Int) (fuel : Nat)
    (fetchStatus : String → FetchBehaviour) (xhr : Nat → List XhrEvent) (file : File)
    (offset : Int) (hfuel : 0 < fuel)
    (hoff : getUploadedBytes fetchStatus file.name = .ok (JSNumber.finite offset))
    (h : (file.size : Int) ≤ offset ∨ (file.size = 0 ∧ 0 ≤ offset)) :
    uploadFileWith chunkSize fuel fetchStatus xhr file
        = some (PromiseState.fulfilled, [Effect.display (some 100) (StatusText.literal "Done!")])
    ∧ uploadFile fuel fetchStatus xhr file
        = some (PromiseState.fulfilled, [Effect.display (some 100) (StatusText.literal "Done!")])
    ∧ sentRequests [Effect.display (some 100) (StatusText.literal "Done!")] = [] := by
  obtain ⟨f, rfl⟩ := Nat.exists_eq_succ_of_ne_zero (Nat.pos_iff_ne_zero.mp hfuel)
  have hlt : (JSNumber.finite offset).ltNat file.size = false := by
    simp only [JSNumber.ltNat, decide_eq_false_iff_not]
    omega
  refine ⟨?_, ?_, rfl⟩
  · simp [uploadFileWith, hoff, uploadFrom, chunkLoop, hlt]
  · simp [uploadFile, uploadFileWith, hoff, uploadFrom, chunkLoop, hlt]

/-- Witness of `uploadFile_empty_plan`: a file of 5 bytes whose status body is
`"7"`. -/
theorem uploadFile_empty_plan_witness :
    uploadFile 1 (statusBody "7") rejectAll { name := "a.bin", size := 5 }
      = some (PromiseState.fulfilled, [Effect.display (some 100) (StatusText.literal "Done!")]) :=
  (uploadFile_empty_plan (1024 * 512) 1 (statusBody "7") rejectAll { name := "a.bin", size := 5 }
    7 (by decide) (by decide) (Or.inl (by decide))).2.1

/-- C4 (a chunk failure is terminal): for a positive chunk size and an offset
above `-2^53` (so that the Number arithmetic of the loop is exact), let
chunk number `j` (from 0) exist, that is `offset + j * chunkSize < size`, and be
the first whose request is rejected, with reason `reason`.  Then `uploadFile`
from that offset returns, its promise is rejected with that same reason, it has
sent exactly `j + 1` requests, request number `k ≤ j` being the one with loop
variable `offset + k * chunkSize` and the bytes
`slice(offset + k * chunkSize, offset + k * chunkSize + chunkSize)`, these are
the first `j + 1` requests of the plan (the requests of the run in which every
chunk is accepted, which has more than `j` of them), and the completion write
(`"Done!"`) does not occur. -/
theorem chunk_failure_terminal (chunkSize : Int) (file : File)
    (xhr xhrAccept : Nat → List XhrEvent) (fuel : Nat) (offset : Int) (j : Nat)
    (reason : String) (hc : 0 < chunkSize) (_hlow : -(2 ^ 53) < offset)
    (hfuel : ((file.size : Int) - offset).toNat < fuel)
    (hj : offset + j * chunkSize < file.size)
    (haccept : ∀ k s b,
      (uploadChunk file.name s b file.size (xhrAccept k)).1 = PromiseState.fulfilled)
    (hbefore : ∀ k : Nat, k < j → ∀ s b,
      (uploadChunk file.name s b file.size (xhr k)).1 = PromiseState.fulfilled)
    (hfail : ∀ s b,
      (uploadChunk file.name s b file.size (xhr j)).1 = PromiseState.rejected reason) :
    ∃ out plan,
      uploadFrom chunkSize fuel xhr file (JSNumber.finite offset)
        = some (PromiseState.rejected reason, out)
      ∧ uploadFrom chunkSize fuel xhrAccept file (JSNumber.finite offset)
        = some (PromiseState.fulfilled, plan)
      ∧ j < (sentRequests plan).length
      ∧ sentRequests out = (sentRequests plan).take (j + 1)
      ∧ (sentRequests out).length = j + 1
      ∧ (∀ k : Nat, k ≤ j →
          (sentRequests out)[k]?
            = some { filename := file.name
                     start := JSNumber.finite (offset + k * chunkSize)
                     chunk := file.slice (JSNumber.finite (offset + k * chunkSize))
                       (JSNumber.finite (offset + k * chunkSize + chunkSize)) })
      ∧ ∀ v, Effect.display v (StatusText.literal "Done!") ∉ out := by
  obtain ⟨hfit, hend⟩ := chunkCount_spec file.size offset chunkSize hc
  have hle := chunkCount_le file.size offset chunkSize hc
  have hjn : j < chunkCount file.size offset chunkSize := by
    have hmul : (j : Int) * chunkSize < (chunkCount file.size offset chunkSize : Int) * chunkSize := by
      linarith
    have := lt_of_mul_lt_mul_right hmul (le_of_lt hc)
    exact_mod_cast this
  have hstop := chunkLoop_stopped chunkSize file xhr (PromiseState.rejected reason) (by simp)
    j offset 0 fuel (by omega) (fun k hk => hfit k (by omega))
    (fun k hk s b => by simpa using hbefore k hk s b) (fun s b => by simpa using hfail s b)
  refine ⟨chunkEffects chunkSize file xhr (j + 1) offset 0, _, ?_,
    uploadFrom_accepted_count chunkSize file xhrAccept fuel offset hc hfuel haccept, ?_, ?_, ?_,
    ?_, ?_⟩
  · simp [uploadFrom, hstop]
  · rw [sentRequests_done, sentRequests_chunkEffects, length_chunkRequests]
    exact hjn
  · rw [sentRequests_done, sentRequests_chunkEffects, sentRequests_chunkEffects,
      take_chunkRequests chunkSize file (j + 1) _ offset hjn]
  · rw [sentRequests_chunkEffects, length_chunkRequests]
  · intro k hk
    rw [sentRequests_chunkEffects,
      getElem?_chunkRequests chunkSize file (j + 1) offset k (by omega)]
    rfl
  · intro v
    exact done_not_mem_chunkEffects chunkSize file xhr v _ _ _

/-- Witness of `chunk_failure_terminal`: a file of 10 bytes in chunks of 4 from
offset 0, the second request rejected with status 500: the requests `[0, 4)` and
`[4, 8)` are sent, the request `[8, 10)` is not, and the upload is rejected. -/
theorem chunk_failure_terminal_witness :
    ((0 : Int) < 4 ∧ -(2 ^ 53) < (0 : Int) ∧ (0 : Int) + (1 : Nat) * 4 < (10 : Nat))
    ∧ ∃ out,
        uploadFrom 4 11 (fun k => if k = 1 then [XhrEvent.load 500 "no"] else
            [XhrEvent.load 200 "OK"]) { name := "a.bin", size := 10 } (JSNumber.finite 0)
          = some (PromiseState.rejected "Upload failed: no", out)
        ∧ sentRequests out
          = [ { filename := "a.bin", start := JSNumber.finite 0
                chunk := { start := 0, stop := 4 } },
              { filename := "a.bin", start := JSNumber.finite 4
                chunk := { start := 4, stop := 8 } } ]
        ∧ ∀ v, Effect.display v (StatusText.literal "Done!") ∉ out := by
  refine ⟨by decide, ?_⟩
  obtain ⟨out, plan, hrun, hplan, _, htake, _, _, hdone⟩ :=
    chunk_failure_terminal 4 { name := "a.bin", size := 10 }
      (fun k => if k = 1 then [XhrEvent.load 500 "no"] else [XhrEvent.load 200 "OK"]) acceptAll
      11 0 1 "Upload failed: no" (by decide) (by decide) (by decide) (by decide)
      (fun _ _ _ => rfl)
      (fun k hk _ _ => by
        have : k = 0 := by omega
        subst this
        rfl)
      (fun _ _ => rfl)
  refine ⟨out, hrun, ?_, hdone⟩
  have hp : uploadFrom 4 11 acceptAll { name := "a.bin", size := 10 } (JSNumber.finite 0)
      = some (PromiseState.fulfilled,
          [ Effect.send { filename := "a.bin", start := JSNumber.finite 0
                          chunk := { start := 0, stop := 4 } },
            Effect.send { filename := "a.bin", start := JSNumber.finite 4
                          chunk := { start := 4, stop := 8 } },
            Effect.send { filename := "a.bin", start := JSNumber.finite 8
                          chunk := { start := 8, stop := 10 } },
            Effect.display (some 100) (StatusText.literal "Done!") ]) := by
    decide
  rw [hp] at hplan
  have hpl := (Prod.mk.inj (Option.some.inj hplan)).2
  rw [htake, ← hpl]
  rfl

/-- C1 (tiling invariant): for a positive chunk size and an offset between 0 and
the file size, a run in which every chunk is accepted sends requests whose byte
ranges are `[start, min (start + chunkSize) size)` with `start` the loop
variable; each range is non-empty and at most `chunkSize` long, each begins
where the previous one ends, the first begins at the offset, the last ends at
the file size, and a byte position lies in `[offset, size)` exactly when it lies
in one of the ranges, which are pairwise disjoint. -/
theorem chunk_tiling (chunkSize : Int) (file : File) (xhr : Nat → List XhrEvent) (fuel : Nat)
    (offset : Int) (hc : 0 < chunkSize) (h0 : 0 ≤ offset) (_h1 : offset ≤ file.size)
    (hfuel : ((file.size : Int) - offset).toNat < fuel)
    (hok : ∀ k s b, (uploadChunk file.name s b file.size (xhr k)).1 = PromiseState.fulfilled) :
    ∃ out, uploadFrom chunkSize fuel xhr file (JSNumber.finite offset)
        = some (PromiseState.fulfilled, out)
      ∧ (∀ r ∈ sentRequests out,
          r.start = JSNumber.finite r.chunk.start
          ∧ r.chunk.stop = min (r.chunk.start + chunkSize) file.size
          ∧ r.chunk.start < r.chunk.stop ∧ r.chunk.stop - r.chunk.start ≤ chunkSize)
      ∧ List.Chain' (fun a b : Request => a.chunk.stop = b.chunk.start) (sentRequests out)
      ∧ (∀ r, (sentRequests out).head? = some r → r.chunk.start = offset)
      ∧ (∀ r, (sentRequests out).getLast? = some r → r.chunk.stop = file.size)
      ∧ (∀ x : Int, (offset ≤ x ∧ x < file.size) ↔
          ∃ r ∈ sentRequests out, r.chunk.start ≤ x ∧ x < r.chunk.stop)
      ∧ List.Pairwise (fun a b : Request => a.chunk.stop ≤ b.chunk.start) (sentRequests out) := by
  obtain ⟨hfit, hend⟩ := chunkCount_spec file.size offset chunkSize hc
  refine ⟨_, uploadFrom_accepted_count chunkSize file xhr fuel offset hc hfuel hok, ?_⟩
  rw [sentRequests_done, sentRequests_chunkEffects]
  refine ⟨?_, ?_, ?_, ?_, ?_, ?_⟩
  · intro r hr
    have h := chunkRequests_mem_range chunkSize file hc _ offset h0 hfit r hr
    exact ⟨h.1, h.2.1, h.2.2.1, h.2.2.2.1⟩
  · exact chunkRequests_chain chunkSize file hc _ offset h0 hfit
  · exact chunkRequests_head chunkSize file hc _ offset h0 hfit
  · exact chunkRequests_last chunkSize file hc _ offset h0 hfit hend
  · exact chunkRequests_cover chunkSize file hc _ offset h0 hfit hend
  · exact chunkRequests_pairwise chunkSize file hc _ offset h0 hfit

/-- Witness of `chunk_tiling`: a file of 10 bytes in chunks of 4, from offset 2. -/
theorem chunk_tiling_witness :
    (0 : Int) < 4 ∧ (0 : Int) ≤ 2 ∧ (2 : Int) ≤ (10 : Nat)
    ∧ ∃ out, uploadFrom 4 9 acceptAll { name := "a.bin", size := 10 } (JSNumber.finite 2)
        = some (PromiseState.fulfilled, out)
      ∧ List.Chain' (fun a b : Request => a.chunk.stop = b.chunk.start) (sentRequests out) := by
  refine ⟨by decide, by decide, by decide, ?_⟩
  obtain ⟨out, h, _, hchain, _⟩ := chunk_tiling 4 { name := "a.bin", size := 10 } acceptAll 9 2
    (by decide) (by decide) (by decide) (by decide) (fun _ _ _ => rfl)
  exact ⟨out, h, hchain⟩

/-- C9 (closed form of the chunk plan): for a positive chunk size and an offset
between 0 and the file size, a run in which every chunk is accepted sends exactly
`⌈(size - offset) / chunkSize⌉` requests, request number `i` (from 0) has loop
variable `offset + i * chunkSize` and carries the bytes
`[offset + i * chunkSize, min (offset + (i + 1) * chunkSize) size)`, and every
request but the last carries exactly `chunkSize` bytes.  For a file of 1,500,000
bytes, chunks of 512,000 and offset 0, what is observed is the three requests
`[0, 512000)`, `[512000, 1024000)`, `[1024000, 1500000)` in that order, then the
final write of progress 100. -/
theorem chunk_plan_closed_form :
    (∀ (chunkSize : Int) (file : File) (xhr : Nat → List XhrEvent) (fuel : Nat) (offset : Int),
      0 < chunkSize → 0 ≤ offset → offset ≤ file.size →
      ((file.size : Int) - offset).toNat < fuel →
      (∀ k s b, (uploadChunk file.name s b file.size (xhr k)).1 = PromiseState.fulfilled) →
      ∃ out, uploadFrom chunkSize fuel xhr file (JSNumber.finite offset)
          = some (PromiseState.fulfilled, out)
        ∧ (sentRequests out).length
            = Nat.ceil ((((file.size : Int) - offset : Int) : ℚ) / (chunkSize : ℚ))
        ∧ (∀ i : Nat, i < (sentRequests out).length →
            (sentRequests out)[i]?
              = some { filename := file.name, start := JSNumber.finite (offset + i * chunkSize)
                       chunk := { start := offset + i * chunkSize
                                  stop := min (offset + (i + 1) * chunkSize) file.size } })
        ∧ (∀ (i : Nat) (r : Request), i + 1 < (sentRequests out).length →
            (sentRequests out)[i]? = some r → r.chunk.stop - r.chunk.start = chunkSize))
    ∧ uploadFrom 512000 4 acceptAll { name := "video.mp4", size := 1500000 } (JSNumber.finite 0)
        = some (PromiseState.fulfilled,
            [ Effect.send { filename := "video.mp4", start := JSNumber.finite 0
                            chunk := { start := 0, stop := 512000 } },
              Effect.send { filename := "video.mp4", start := JSNumber.finite 512000
                            chunk := { start := 512000, stop := 1024000 } },
              Effect.send { filename := "video.mp4", start := JSNumber.finite 1024000
                            chunk := { start := 1024000, stop := 1500000 } },
              Effect.display (some 100) (StatusText.literal "Done!") ]) := by
  constructor
  · intro chunkSize file xhr fuel offset hc h0 h1 hfuel hok
    obtain ⟨hfit, hend⟩ := chunkCount_spec file.size offset chunkSize hc
    refine ⟨_, uploadFrom_accepted_count chunkSize file xhr fuel offset hc hfuel hok, ?_⟩
    rw [sentRequests_done, sentRequests_chunkEffects, length_chunkRequests]
    have hform : ∀ i : Nat, i < chunkCount file.size offset chunkSize →
        (chunkRequests chunkSize file (chunkCount file.size offset chunkSize) offset)[i]?
          = some { filename := file.name, start := JSNumber.finite (offset + i * chunkSize)
                   chunk := { start := offset + i * chunkSize
                              stop := min (offset + (i + 1) * chunkSize) file.size } } := by
      intro i hi
      have hi0 : (0 : Int) ≤ i * chunkSize := mul_nonneg (by omega) (le_of_lt hc)
      rw [getElem?_chunkRequests chunkSize file _ offset i hi,
        chunkRequest_eq chunkSize file _ hc (by omega) (hfit i hi)]
      congr 4
      ring
    refine ⟨(ceil_eq_of_fits file.size offset chunkSize hc _ hfit hend).symm, hform, ?_⟩
    intro i r hi hr
    rw [hform i (by omega)] at hr
    simp only [Option.some.injEq] at hr
    have hnext := hfit (i + 1) hi
    push_cast at hnext
    rw [← hr]
    simp only []
    have : offset + ((i : Int) + 1) * chunkSize = offset + i * chunkSize + chunkSize := by ring
    omega
  · decide

/-- Witness of `chunk_plan_closed_form`: a file of 10 bytes in chunks of 4 from
offset 2 is sent in `⌈8 / 4⌉` requests. -/
theorem chunk_plan_closed_form_witness :
    ∃ out, uploadFrom 4 9 acceptAll { name := "a.bin", size := 10 } (JSNumber.finite 2)
        = some (PromiseState.fulfilled, out)
      ∧ (sentRequests out).length
          = Nat.ceil (((((10 : Nat) : Int) - 2 : Int) : ℚ) / ((4 : Int) : ℚ)) := by
  obtain ⟨out, h, hlen, _⟩ := chunk_plan_closed_form.1 4 { name := "a.bin", size := 10 }
    acceptAll 9 2 (by decide) (by decide) (by decide) (by decide) (fun _ _ _ => rfl)
  exact ⟨out, h, hlen⟩

/-- C6 (resume idempotence): for a positive chunk size, an offset `o` between 0
and the file size and `k` at most the number of requests of the run from `o`,
the run from `o + k * chunkSize` sends exactly the requests of the run from `o`
with the first `k` removed, in the same order, and the byte range of each of
those first `k` requests ends before every range of the resumed run begins. -/
theorem resume_idempotence (chunkSize : Int) (file : File) (xhr xhrResumed : Nat → List XhrEvent)
    (fuel : Nat) (offset : Int) (k : Nat) (hc : 0 < chunkSize) (h0 : 0 ≤ offset)
    (h1 : offset ≤ file.size) (hfuel : ((file.size : Int) - offset).toNat < fuel)
    (hok : ∀ i s b, (uploadChunk file.name s b file.size (xhr i)).1 = PromiseState.fulfilled)
    (hokResumed : ∀ i s b,
      (uploadChunk file.name s b file.size (xhrResumed i)).1 = PromiseState.fulfilled) :
    ∃ out outResumed,
      uploadFrom chunkSize fuel xhr file (JSNumber.finite offset)
        = some (PromiseState.fulfilled, out)
      ∧ uploadFrom chunkSize fuel xhrResumed file (JSNumber.finite (offset + k * chunkSize))
        = some (PromiseState.fulfilled, outResumed)
      ∧ (k ≤ (sentRequests out).length →
          sentRequests outResumed = (sentRequests out).drop k
          ∧ ∀ a ∈ (sentRequests out).take k, ∀ b ∈ sentRequests outResumed,
              a.chunk.stop ≤ b.chunk.start ∧ a ≠ b) := by
  obtain ⟨hfit, hend⟩ := chunkCount_spec file.size offset chunkSize hc
  have hk0 : (0 : Int) ≤ k * chunkSize := mul_nonneg (by omega) (le_of_lt hc)
  have hfuel2 : ((file.size : Int) - (offset + k * chunkSize)).toNat < fuel := by omega
  refine ⟨_, _, uploadFrom_accepted_count chunkSize file xhr fuel offset hc hfuel hok,
    uploadFrom_accepted_count chunkSize file xhrResumed fuel _ hc hfuel2 hokResumed, ?_⟩
  simp only [sentRequests_done, sentRequests_chunkEffects, length_chunkRequests]
  intro hk
  obtain ⟨hfit2, hend2⟩ := chunkCount_spec file.size (offset + k * chunkSize) chunkSize hc
  have hcount : chunkCount file.size (offset + k * chunkSize) chunkSize
      = chunkCount file.size offset chunkSize - k := by
    have e1 := ceil_eq_of_fits file.size (offset + k * chunkSize) chunkSize hc _ hfit2 hend2
    have e2 := ceil_eq_of_fits file.size (offset + k * chunkSize) chunkSize hc
      (chunkCount file.size offset chunkSize - k)
      (by
        intro i hi
        have := hfit (k + i) (by omega)
        push_cast at this
        linarith)
      (by
        have hsub : ((chunkCount file.size offset chunkSize - k : Nat) : Int)
            = (chunkCount file.size offset chunkSize : Int) - k := by omega
        rw [hsub]
        linarith)
    rw [← e1, e2]
  have hdrop := drop_chunkRequests chunkSize file k _ offset hk
  rw [hcount, ← hdrop]
  refine ⟨rfl, ?_⟩
  intro a ha b hb
  have hpw := chunkRequests_pairwise chunkSize file hc _ offset h0 hfit
  rw [← List.take_append_drop k (chunkRequests chunkSize file _ offset),
    List.pairwise_append] at hpw
  have hab := hpw.2.2 a ha b hb
  refine ⟨hab, ?_⟩
  intro heq
  have hmem := chunkRequests_mem_range chunkSize file hc _ offset h0 hfit a
    (List.mem_of_mem_take ha)
  rw [heq] at hab hmem
  omega

/-- Witness of `resume_idempotence`: a file of 10 bytes in chunks of 4, resumed
after the first chunk. -/
theorem resume_idempotence_witness :
    ∃ out outResumed,
      uploadFrom 4 11 acceptAll { name := "a.bin", size := 10 } (JSNumber.finite 0)
        = some (PromiseState.fulfilled, out)
      ∧ uploadFrom 4 11 acceptAll { name := "a.bin", size := 10 }
          (JSNumber.finite (0 + (1 : Nat) * 4))
        = some (PromiseState.fulfilled, outResumed)
      ∧ (1 ≤ (sentRequests out).length →
          sentRequests outResumed = (sentRequests out).drop 1
          ∧ ∀ a ∈ (sentRequests out).take 1, ∀ b ∈ sentRequests outResumed,
              a.chunk.stop ≤ b.chunk.start ∧ a ≠ b) :=
  resume_idempotence 4 { name := "a.bin", size := 10 } acceptAll acceptAll 11 0 1
    (by decide) (by decide) (by decide) (by decide) (fun _ _ _ => rfl) (fun _ _ _ => rfl)

/-- C5 (monotonic progress): for a positive chunk size and an offset between 0
and the file size, in a run where every chunk is accepted and where, within each
chunk, the `loaded` values reported are non-decreasing and at most the length of
the chunk, the values written to the progress bar are rationals, they are
non-decreasing, each lies in `[0, 100]`, and the last one is exactly 100. -/
theorem progress_monotone (chunkSize : Int) (file : File) (xhr : Nat → List XhrEvent)
    (fuel : Nat) (offset : Int) (hc : 0 < chunkSize) (h0 : 0 ≤ offset)
    (_h1 : offset ≤ file.size) (hfuel : ((file.size : Int) - offset).toNat < fuel)
    (hok : ∀ k s b, (uploadChunk file.name s b file.size (xhr k)).1 = PromiseState.fulfilled)
    (hprog : ∀ k : Nat, offset + k * chunkSize < file.size →
      List.Pairwise (fun a b : Nat => a ≤ b) (reportedLoaded (xhr k))
      ∧ ∀ l ∈ reportedLoaded (xhr k),
          (l : Int) ≤ min (offset + (k + 1) * chunkSize) file.size - (offset + k * chunkSize)) :
    ∃ (out : List Effect) (qs : List ℚ), uploadFrom chunkSize fuel xhr file (JSNumber.finite offset)
        = some (PromiseState.fulfilled, out)
      ∧ displayedValues out = qs.map some
      ∧ qs.Pairwise (fun a b : ℚ => a ≤ b)
      ∧ (∀ q ∈ qs, 0 ≤ q ∧ q ≤ 100)
      ∧ qs.getLast? = some 100 := by
  obtain ⟨hfit, _⟩ := chunkCount_spec file.size offset chunkSize hc
  have hprog1 : ∀ k : Nat, k < chunkCount file.size offset chunkSize →
      List.Pairwise (fun a b : Nat => a ≤ b) (reportedLoaded (xhr (0 + k)))
      ∧ ∀ l ∈ reportedLoaded (xhr (0 + k)),
          (l : Int) ≤ min (offset + k * chunkSize + chunkSize) file.size
            - (offset + k * chunkSize) := by
    intro k hk
    have h := hprog k (hfit k hk)
    have e : offset + ((k : Int) + 1) * chunkSize = offset + k * chunkSize + chunkSize := by ring
    rw [e] at h
    simpa using h
  obtain ⟨xs, hxs, hpw, hbd⟩ :=
    displayedValues_chunkEffects chunkSize file xhr hc _ offset 0 h0 hfit hprog1
  refine ⟨_, xs.map (fun x => ((x : Int) : ℚ) / (file.size : ℚ) * 100) ++ [100],
    uploadFrom_accepted_count chunkSize file xhr fuel offset hc hfuel hok, ?_, ?_, ?_, ?_⟩
  · rw [displayedValues_append, hxs]
    simp [displayedValues]
  · rw [List.pairwise_append]
    refine ⟨List.Pairwise.map _ (fun a b hab => percent_mono file.size a b hab) hpw,
      List.pairwise_singleton _ _, ?_⟩
    intro a ha b hb
    obtain ⟨x, hx, rfl⟩ := List.mem_map.mp ha
    rw [List.mem_singleton.mp hb]
    exact (percent_bounds file.size x (by have := (hbd x hx).1; omega) (hbd x hx).2).2
  · intro q hq
    rcases List.mem_append.mp hq with hq | hq
    · obtain ⟨x, hx, rfl⟩ := List.mem_map.mp hq
      exact percent_bounds file.size x (by have := (hbd x hx).1; omega) (hbd x hx).2
    · rw [List.mem_singleton.mp hq]
      norm_num
  · simp

/-- Witness of `progress_monotone`: a file of 10 bytes in chunks of 4; each
request reports 0, 1 and 2 bytes sent before it is accepted. -/
theorem progress_monotone_witness :
    ∃ (out : List Effect) (qs : List ℚ), uploadFrom 4 11
          (fun _ => [XhrEvent.progress true 0, XhrEvent.progress true 1,
            XhrEvent.progress true 2, XhrEvent.load 200 "OK"])
          { name := "a.bin", size := 10 } (JSNumber.finite 0)
        = some (PromiseState.fulfilled, out)
      ∧ displayedValues out = qs.map some
      ∧ qs.Pairwise (fun a b : ℚ => a ≤ b)
      ∧ (∀ q ∈ qs, 0 ≤ q ∧ q ≤ 100)
      ∧ qs.getLast? = some 100 :=
  progress_monotone 4 { name := "a.bin", size := 10 }
    (fun _ => [XhrEvent.progress true 0, XhrEvent.progress true 1,
      XhrEvent.progress true 2, XhrEvent.load 200 "OK"])
    11 0 (by decide) (by decide) (by decide) (by decide) (fun _ _ _ => rfl)
    (fun k hk => by
      have hk2 : k < 3 := by
        by_contra hcon
        have : (3 : Int) ≤ k := by omega
        simp only [] at hk
        omega
      refine ⟨by simp [reportedLoaded], ?_⟩
      intro l hl
      simp only [reportedLoaded, List.mem_cons, List.mem_singleton, List.not_mem_nil,
        or_false] at hl
      interval_cases k <;> rcases hl with rfl | rfl | rfl <;> simp)

/-- C7, as amended (negotiated offset): `uploadFile` starts its chunk loop from
the value `v` of `getUploadedBytes`, which always exists and is never `NaN`.
It is `0` unless the response is ok with a readable body; for such a body it is
`parseInt body || 0`, which is `0` when the body does not begin with an integer
and is not confined to `[0, size]` otherwise; when the body is a non-empty string
of decimal digits writing `n` with `n ≤ 2^53` and `n ≤ size`, the offset is `n`,
an integer in `[0, size]`. -/
theorem negotiated_offset (fetchStatus : String → FetchBehaviour) (file : File) :
    ∃ v, getUploadedBytes fetchStatus file.name = .ok v
      ∧ v ≠ JSNumber.nan
      ∧ (∀ fuel xhr, uploadFile fuel fetchStatus xhr file
          = uploadFrom (1024 * 512) fuel xhr file v)
      ∧ ((∀ body, fetchStatus file.name ≠ .response true (.ok body)) → v = JSNumber.finite 0)
      ∧ (∀ body, fetchStatus file.name = .response true (.ok body) →
          v = (parseInt body).orZero ∧ (beginsWithInteger body = false → v = JSNumber.finite 0))
      ∧ (∀ ds : List Nat, ds ≠ [] → (∀ d ∈ ds, d < 10) → Nat.ofDigits 10 ds.reverse ≤ 2 ^ 53 →
          Nat.ofDigits 10 ds.reverse ≤ file.size →
          fetchStatus file.name = .response true (.ok (String.mk (ds.map Nat.digitChar))) →
          v = JSNumber.finite (Nat.ofDigits 10 ds.reverse : Nat)
          ∧ (0 : Int) ≤ (Nat.ofDigits 10 ds.reverse : Nat)
          ∧ ((Nat.ofDigits 10 ds.reverse : Nat) : Int) ≤ file.size) := by
  have hex : ∃ v, getUploadedBytes fetchStatus file.name = .ok v ∧ v ≠ JSNumber.nan := by
    by_cases hb : ∃ body, fetchStatus file.name = .response true (.ok body)
    · obtain ⟨body, hbody⟩ := hb
      exact ⟨_, getUploadedBytes_of_body _ _ _ hbody, orZero_ne_nan _⟩
    · exact ⟨_, getUploadedBytes_of_not_body _ _ (fun body h => hb ⟨body, h⟩), by simp⟩
  obtain ⟨v, hv, hnan⟩ := hex
  refine ⟨v, hv, hnan, ?_, ?_, ?_, ?_⟩
  · intro fuel xhr
    simp [uploadFile, uploadFileWith, hv]
  · intro h
    have := getUploadedBytes_of_not_body _ _ h
    rw [hv] at this
    exact Except.ok.inj this
  · intro body h
    have := getUploadedBytes_of_body _ _ _ h
    rw [hv] at this
    have hv2 : v = (parseInt body).orZero := Except.ok.inj this
    refine ⟨hv2, ?_⟩
    intro hn
    rw [hv2, parseInt_of_not_beginsWithInteger body hn]
    rfl
  · intro ds hne hds hle hsize h
    have := getUploadedBytes_of_digits _ _ ds hne hds hle h
    rw [hv] at this
    exact ⟨Except.ok.inj this, by omega, by exact_mod_cast hsize⟩

/-- Witness of `negotiated_offset`: the body `"42"` for a file of 100 bytes. -/
theorem negotiated_offset_witness :
    getUploadedBytes (statusBody (String.mk ([4, 2].map Nat.digitChar))) "a.bin"
        = .ok (JSNumber.finite (Nat.ofDigits 10 [4, 2].reverse : Nat))
    ∧ ((Nat.ofDigits 10 [4, 2].reverse : Nat) : Int) ≤ (100 : Nat) := by
  obtain ⟨v, hv, _, _, _, _, h⟩ := negotiated_offset
    (statusBody (String.mk ([4, 2].map Nat.digitChar))) { name := "a.bin", size := 100 }
  obtain ⟨h1, _, h3⟩ := h [4, 2] (by decide) (by decide) (by decide) (by decide) rfl
  rw [h1] at hv
  exact ⟨hv, h3⟩

/-- C7 as stated fails: for a file of 10 bytes the body `"-5"` gives the offset
`-5`, from which `uploadFile` sends the bytes `[5, 10)` with `start = -5`, and the
body `"999"` gives the offset 999; neither is in `[0, 10]` and neither body is
treated as 0. -/
theorem negotiated_offset_counterexample :
    getUploadedBytes (statusBody "-5") "a.bin" = .ok (JSNumber.finite (-5))
    ∧ ¬ ((0 : Int) ≤ -5)
    ∧ uploadFile 2 (statusBody "-5") acceptAll { name := "a.bin", size := 10 }
        = some (PromiseState.fulfilled,
            [ Effect.send { filename := "a.bin", start := JSNumber.finite (-5)
                            chunk := { start := 5, stop := 10 } },
              Effect.display (some 100) (StatusText.literal "Done!") ])
    ∧ getUploadedBytes (statusBody "999") "a.bin" = .ok (JSNumber.finite 999)
    ∧ ¬ ((999 : Int) ≤ (10 : Nat)) := by
  decide

/-- C2, as amended (a failed file ends the batch): when the files before `f`
complete and the upload of `f` is rejected, the submit handler runs exactly those
files and `f`, in order, each as it would run on its own, its promise is rejected
with the reason of `f`, and no file after `f` is started.  For a file `A` whose
chunks are all accepted and a file `B` whose chunks are all rejected, the batch
`[A, B]` ends with `A` fulfilled and `B` rejected, and the batch `[B, A]` ends
with `B` rejected and `A` not started. -/
theorem batch_stops_at_first_failure :
    (∀ (fuel : Nat) (fetchStatus : Nat → String → FetchBehaviour)
        (xhr : Nat → Nat → List XhrEvent) (pre : List File) (f : File) (post : List File)
        (reason : String),
      (∀ (i : Nat) (h : i < pre.length), ∃ out,
        uploadFile fuel (fetchStatus i) (xhr i) pre[i] = some (PromiseState.fulfilled, out)) →
      (∃ out, uploadFile fuel (fetchStatus pre.length) (xhr pre.length) f
          = some (PromiseState.rejected reason, out)) →
      ∃ runs, submitHandler fuel fetchStatus xhr (pre ++ f :: post)
          = some (SubmitResult.ran (PromiseState.rejected reason) runs)
        ∧ runs.map some
            = ((pre ++ [f]).enumFrom 0).map (fun e => aloneRun fuel fetchStatus xhr e.1 e.2)
        ∧ runs.map (fun run => run.file) = pre ++ [f])
    ∧ (∃ runs, submitHandler 2 (fun _ => statusBody "0")
          (fun k => if k = 0 then acceptAll else rejectAll)
          [{ name := "A.bin", size := 3 }, { name := "B.bin", size := 3 }]
        = some (SubmitResult.ran (PromiseState.rejected "Upload failed: disk full") runs)
      ∧ runs.map (fun run => (run.file.name, run.outcome))
        = [("A.bin", PromiseState.fulfilled),
           ("B.bin", PromiseState.rejected "Upload failed: disk full")])
    ∧ (∃ runs, submitHandler 2 (fun _ => statusBody "0")
          (fun k => if k = 0 then rejectAll else acceptAll)
          [{ name := "B.bin", size := 3 }, { name := "A.bin", size := 3 }]
        = some (SubmitResult.ran (PromiseState.rejected "Upload failed: disk full") runs)
      ∧ runs.map (fun run => (run.file.name, run.outcome))
        = [("B.bin", PromiseState.rejected "Upload failed: disk full")]) := by
  refine ⟨?_, ?_, ?_⟩
  · intro fuel fetchStatus xhr pre f post reason hpre hf
    obtain ⟨runs, hruns, hmap, hfiles⟩ := submitLoop_rejected fuel fetchStatus xhr f post reason
      pre 0 (by simpa using hpre) (by simpa using hf)
    refine ⟨runs, ?_, hmap, hfiles⟩
    simp [submitHandler, hruns]
  · exact ⟨_, rfl, by decide⟩
  · exact ⟨_, rfl, by decide⟩

/-- Witness of `batch_stops_at_first_failure`: the batch `[A, B, A]` with the
chunks of `B` rejected runs `A` and `B` only. -/
theorem batch_stops_at_first_failure_witness :
    ∃ runs, submitHandler 2 (fun _ => statusBody "0")
        (fun k => if k = 1 then rejectAll else acceptAll)
        ([{ name := "A.bin", size := 3 }] ++ { name := "B.bin", size := 3 }
          :: [{ name := "A.bin", size := 3 }])
        = some (SubmitResult.ran (PromiseState.rejected "Upload failed: disk full") runs)
      ∧ runs.map (fun run => run.file)
        = [{ name := "A.bin", size := 3 }] ++ [{ name := "B.bin", size := 3 }] := by
  obtain ⟨runs, h, _, hfiles⟩ := batch_stops_at_first_failure.1 2 (fun _ => statusBody "0")
    (fun k => if k = 1 then rejectAll else acceptAll)
    [{ name := "A.bin", size := 3 }] { name := "B.bin", size := 3 }
    [{ name := "A.bin", size := 3 }] "Upload failed: disk full"
    (fun i h => by
      have : i = 0 := by simpa using h
      subst this
      exact ⟨_, rfl⟩)
    ⟨_, rfl⟩
  exact ⟨runs, h, hfiles⟩

/-- C2 as stated fails: with `B` first, the batch `[B, A]` runs `B` only, and
`A`, which completes when uploaded on its own, is never started. -/
theorem batch_isolation_counterexample :
    submitHandler 2 (fun _ => statusBody "0") (fun k => if k = 0 then rejectAll else acceptAll)
        [{ name := "B.bin", size := 3 }, { name := "A.bin", size := 3 }]
      = some (SubmitResult.ran (PromiseState.rejected "Upload failed: disk full")
          [{ file := { name := "B.bin", size := 3 }
             outcome := PromiseState.rejected "Upload failed: disk full"
             effects := [ Effect.display (some 0) (StatusText.literal ""),
                          Effect.send { filename := "B.bin", start := JSNumber.finite 0
                                        chunk := { start := 0, stop := 3 } } ] }])
    ∧ uploadFile 2 (statusBody "0") acceptAll { name := "A.bin", size := 3 }
      = some (PromiseState.fulfilled,
          [ Effect.send { filename := "A.bin", start := JSNumber.finite 0
                          chunk := { start := 0, stop := 3 } },
            Effect.display (some 100) (StatusText.literal "Done!") ]) := by
  decide

end SimpleFileServer
